import Mathlib

/-!
Verification of the noktulo peer-to-peer microblogging node.

This file shallowly embeds the parts of the Rust source that the checked
properties speak about: the key space (`src/kad/key.rs`), the routing table
(`src/kad/routing.rs`), the Kademlia node's request handling and lookups
(`src/kad/node.rs`), the user-DHT store predicate (`src/service/network.rs`),
addresses and user attributes (`src/user/user.rs`), the local post handle
(`src/service/user_handle.rs`) and the from-scratch Ed25519 implementation
(`src/crypto/ed25519.rs`).

Machine integers are modelled as `Nat` (with explicit `% 2 ^ w` where the
source can wrap), byte vectors as `List Nat` whose members are `< 256`,
`BigUint` as `Nat`, and fallible code as `Option`/`Except`. External crates
(`sha2`, `sha3`, `blake2`) are embedded as the well-known functions they
compute (SHA-512, SHA3-512 / Keccak, BLAKE2s-256); the embeddings are
validated against the repository's own RFC 8032 test vector in
`src/crypto/ed25519.rs`.
-/

namespace Noktulo

/-! ## Tunable constants (src/kad/mod.rs, src/service/mod.rs) -/

def TOKEN_KEY_LEN : Nat := 20

def K_PARAM : Nat := 8

def MESSAGE_LEN : Nat := 8196

def TIME_OUT : Nat := 5000

/-- Source: `pub const BROADCAST_TIME_OUT: u64 = 3000000; // 5 minutes`. -/
def BROADCAST_TIME_OUT : Nat := 3000000

def USER_DHT_KEY_LENGTH : Nat := 32

def PUBSUB_DHT_KEY_LENGTH : Nat := 64

/-! ## Keys (src/kad/key.rs)

A `Key` is an opaque byte vector; its bytes in range is a side condition
carried by theorems, not by the type. -/

abbrev Key := List Nat

/-- Bytewise XOR; `Key::bitxor` asserts equal lengths, which theorems carry
as a hypothesis. -/
def keyXor (a b : Key) : Key := List.zipWith (fun x y => x ^^^ y) a b

/-- Inner loop of `Key::zeroes_in_prefix`: `for j in (0..8).rev()`, return the
first `j` with `(b >> j) & 1 != 0`.  Called with fuel 8 so it scans
`j = 7, 6, …, 0`. -/
def findSetBit (b : Nat) : Nat → Option Nat
  | 0 => none
  | j + 1 => if (b >>> j) &&& 1 ≠ 0 then some j else findSetBit b j

/-- Outer loop of `Key::zeroes_in_prefix`: skip zero bytes; in the first byte
with a set bit below 8 return `i * 8 + j`; fall through to `len * 8 - 1`. -/
def zeroesInPrefixAux (len : Nat) : List Nat → Nat → Nat
  | [], _ => len * 8 - 1
  | b :: rest, i =>
    if b = 0 then zeroesInPrefixAux len rest (i + 1)
    else
      match findSetBit b 8 with
      | some j => i * 8 + j
      | none => zeroesInPrefixAux len rest (i + 1)

/-- `Key::zeroes_in_prefix`. -/
def zeroesInPrefix (k : Key) : Nat := zeroesInPrefixAux k.length k 0

/-- `Key::is_prefix`: byte-for-byte comparison of `self` against the start of
`other`, false when `self` is longer. -/
def isPrefixKey (a b : Key) : Bool :=
  if a.length > b.length then false
  else decide (∀ i ∈ List.range a.length, a.getD i 0 = b.getD i 0)

/-- `Key::resize`: truncate or zero-extend to `newLen` (`Vec::resize`). -/
def keyResize (k : Key) (newLen : Nat) : Key :=
  if k.length ≤ newLen then k ++ List.replicate (newLen - k.length) 0
  else k.take newLen

/-! Helper lemmas about `zeroesInPrefix`. -/

theorem findSetBit_eq_none (b : Nat) (f : Nat) (h : ∀ j < f, (b >>> j) &&& 1 = 0) :
    findSetBit b f = none := by
  induction f with
  | zero => rfl
  | succ j ih =>
    simp only [findSetBit]
    rw [if_neg]
    · exact ih fun i hi => h i (Nat.lt_succ_of_lt hi)
    · simp only [ne_eq, not_not]
      exact h j (Nat.lt_succ_self j)

theorem shiftRight_and_one (b j : Nat) : (b >>> j) &&& 1 = b / 2 ^ j % 2 := by
  rw [Nat.shiftRight_eq_div_pow, Nat.and_one_is_mod]

theorem findSetBit_eq_log2 (b : Nat) (f : Nat) (hb : b ≠ 0) (hf : b < 2 ^ f) :
    findSetBit b f = some (Nat.log2 b) := by
  induction f with
  | zero => exact absurd (Nat.lt_one_iff.mp hf) hb
  | succ f ih =>
    simp only [findSetBit]
    rcases Nat.lt_or_ge b (2 ^ f) with hlt | hge
    · rw [if_neg, ih hlt]
      simp only [ne_eq, not_not, shiftRight_and_one]
      rw [Nat.div_eq_of_lt hlt]
    · have h1 : b / 2 ^ f = 1 := by
        have hlt2 : b / 2 ^ f < 2 := by
          rw [Nat.div_lt_iff_lt_mul (Nat.pos_pow_of_pos f (by norm_num))]
          have h2 : 2 ^ (f + 1) = 2 ^ f * 2 := pow_succ 2 f
          omega
        have hge2 : 1 ≤ b / 2 ^ f :=
          (Nat.one_le_div_iff (Nat.pos_pow_of_pos f (by norm_num))).mpr hge
        omega
      rw [if_pos]
      · congr 1
        rw [Nat.log2_eq_log_two]
        exact ((Nat.log_eq_iff (Or.inr ⟨by norm_num, hb⟩)).mpr ⟨hge, hf⟩).symm
      · rw [shiftRight_and_one, h1]
        norm_num

theorem zeroesInPrefixAux_all_zero (len : Nat) (k : List Nat) (i : Nat)
    (h : ∀ x ∈ k, x = 0) : zeroesInPrefixAux len k i = len * 8 - 1 := by
  induction k generalizing i with
  | nil => rfl
  | cons b rest ih =>
    have hb : b = 0 := h b (List.mem_cons_self b rest)
    simp only [zeroesInPrefixAux, if_pos hb]
    exact ih (i + 1) (fun x hx => h x (List.mem_cons_of_mem b hx))

theorem zeroesInPrefixAux_first_nonzero (len : Nat) (a : List Nat) (b : Nat)
    (t : List Nat) (i : Nat) (ha : ∀ x ∈ a, x = 0) (hb : b ≠ 0) (hb2 : b < 256) :
    zeroesInPrefixAux len (a ++ b :: t) i = (i + a.length) * 8 + Nat.log2 b := by
  induction a generalizing i with
  | nil =>
    simp only [List.nil_append, zeroesInPrefixAux, if_neg hb,
      findSetBit_eq_log2 b 8 hb hb2, List.length_nil, Nat.add_zero]
  | cons x rest ih =>
    have hx : x = 0 := ha x (List.mem_cons_self x rest)
    simp only [List.cons_append, zeroesInPrefixAux, if_pos hx, List.append_eq]
    rw [ih (i + 1) (fun y hy => ha y (List.mem_cons_of_mem x hy))]
    simp only [List.length_cons]
    omega

/-- C7: `zeroes_in_prefix` scans bytes from the start; at the first nonzero
byte (index `i`, value `b < 256`) it returns `i * 8 + j` with `j` the index of
the most-significant set bit of `b` counted from the least-significant end
(that is `Nat.log2 b`); on a nonempty all-zero key of `len` bytes it returns
`8 * len - 1`. -/
theorem claim7_zeroes_in_prefix :
    (∀ (a : List Nat) (b : Nat) (t : List Nat), (∀ x ∈ a, x = 0) → b ≠ 0 →
      b < 256 → zeroesInPrefix (a ++ b :: t) = a.length * 8 + Nat.log2 b) ∧
    (∀ k : Key, k ≠ [] → (∀ x ∈ k, x = 0) → zeroesInPrefix k = 8 * k.length - 1) := by
  constructor
  · intro a b t ha hb hb2
    unfold zeroesInPrefix
    rw [zeroesInPrefixAux_first_nonzero _ a b t 0 ha hb hb2, Nat.zero_add]
  · intro k _ h
    unfold zeroesInPrefix
    rw [zeroesInPrefixAux_all_zero _ k 0 h, Nat.mul_comm]

/-- Concrete check of both branches of C7: `0x12` has its top set bit at
index 4, so `[0, 0x12]` yields `8 + 4`; the all-zero 2-byte key yields 15. -/
theorem claim7_zeroes_in_prefix_witness :
    zeroesInPrefix [0, 18] = 12 ∧ zeroesInPrefix [0, 0] = 15 := by
  constructor
  · have h := claim7_zeroes_in_prefix.1 [0] 18 [] (by decide) (by decide) (by decide)
    have h2 : Nat.log2 18 = 4 := by
      rw [Nat.log2_eq_log_two]
      exact (Nat.log_eq_iff (Or.inl (by norm_num))).mpr (by norm_num)
    simpa [h2] using h
  · have h := claim7_zeroes_in_prefix.2 [0, 0] (by decide) (by decide)
    simpa using h

/-- C8: the per-RPC timeout is 5000 ms as specified, but the broadcast-token
expiry constant is 3000000 ms (50 minutes), not the 5 minutes = 300000 ms
that both the specification and the source's own `// 5 minutes` comment
state. -/
theorem claim8_timeout_constants :
    TIME_OUT = 5000 ∧ BROADCAST_TIME_OUT = 3000000 ∧
      BROADCAST_TIME_OUT ≠ 5 * 60 * 1000 := by decide

/-! ## Routing table (src/kad/routing.rs) -/

structure NodeInfo where
  id : Key
  addr : Nat
  netId : String
  deriving DecidableEq

instance : Inhabited NodeInfo := ⟨⟨[], 0, ""⟩⟩

structure RoutingTable where
  keyLen : Nat
  nodeInfo : NodeInfo
  buckets : List (List NodeInfo)
  deriving DecidableEq

/-- `RoutingTable::lookup_bucket_index`. -/
def RoutingTable.lookupBucketIndex (rt : RoutingTable) (item : Key) : Nat :=
  zeroesInPrefix (keyXor rt.nodeInfo.id item)

/-- `RoutingTable::update`: an id already resident moves to the tail of its
bucket (most recently seen); a new id is appended when the bucket holds fewer
than `K_PARAM` entries; otherwise the table is unchanged and the bucket's
head (least recently seen) is returned for the caller to ping. -/
def RoutingTable.update (rt : RoutingTable) (ni : NodeInfo) :
    RoutingTable × Option NodeInfo :=
  let bi := rt.lookupBucketIndex ni.id
  let bucket := rt.buckets.getD bi []
  match List.findIdx? (fun x => decide (x.id = ni.id)) bucket with
  | some i =>
    let tmp := bucket.getD i default
    ({ rt with buckets := rt.buckets.set bi (bucket.eraseIdx i ++ [tmp]) }, none)
  | none =>
    if bucket.length < K_PARAM then
      ({ rt with buckets := rt.buckets.set bi (bucket ++ [ni]) }, none)
    else
      (rt, some (bucket.headD default))

/-- `RoutingTable::remove`: deletion by full `NodeInfo` equality in the
bucket the id maps to (a miss only logs a warning). -/
def RoutingTable.remove (rt : RoutingTable) (ni : NodeInfo) : RoutingTable :=
  let bi := rt.lookupBucketIndex ni.id
  let bucket := rt.buckets.getD bi []
  match List.findIdx? (fun x => decide (x = ni)) bucket with
  | some i => { rt with buckets := rt.buckets.set bi (bucket.eraseIdx i) }
  | none => rt

/-- `RoutingTable::new`: `8 * key_len` empty buckets, then the owner is
inserted through `update`. -/
def RoutingTable.new (ni : NodeInfo) (keyLen : Nat) : RoutingTable :=
  (RoutingTable.update ⟨keyLen, ni, List.replicate (keyLen * 8) []⟩ ni).1

/-- Lexicographic comparison of byte vectors (derived `Ord` of `Key`, i.e.
`Vec<u8>::cmp`). -/
def bytesCompare : List Nat → List Nat → Ordering
  | [], [] => Ordering.eq
  | [], _ :: _ => Ordering.lt
  | _ :: _, [] => Ordering.gt
  | a :: as, b :: bs =>
    match compare a b with
    | Ordering.eq => bytesCompare as bs
    | o => o

/-- `a.1.cmp(&b.1) != Greater`: the "stays before" relation of the stable
ascending sort `sort_by(|a, b| a.1.cmp(&b.1))`. -/
def distLe (a b : NodeInfo × Key) : Bool := bytesCompare a.2 b.2 ≠ Ordering.gt

/-- Stable insertion into a distance-sorted list: `x` goes after every
element it does not strictly precede. -/
def insertByDist (x : NodeInfo × Key) : List (NodeInfo × Key) → List (NodeInfo × Key)
  | [] => [x]
  | y :: ys => if distLe y x then y :: insertByDist x ys else x :: y :: ys

/-- Stable ascending sort by XOR distance, realising the source's
`sort_by(|a, b| a.1.cmp(&b.1))` (ties never arise between distinct ids, since
equal distances to one target mean equal ids). -/
def sortByDist : List (NodeInfo × Key) → List (NodeInfo × Key)
  | [] => []
  | x :: xs => insertByDist x (sortByDist xs)

/-- `RoutingTable::closest_nodes`: every resident paired with its XOR
distance to `item`, sorted ascending, truncated to `count`. -/
def RoutingTable.closestNodes (rt : RoutingTable) (item : Key) (count : Nat) :
    List (NodeInfo × Key) :=
  if count = 0 then []
  else (sortByDist ((rt.buckets.flatten).map
    (fun ni => (ni, keyXor ni.id item)))).take count

/-- Routing-table operations of C4 (after construction). -/
inductive RtOp where
  | update (ni : NodeInfo)
  | remove (ni : NodeInfo)
  deriving DecidableEq

def applyRtOp (rt : RoutingTable) : RtOp → RoutingTable
  | RtOp.update ni => (rt.update ni).1
  | RtOp.remove ni => rt.remove ni

def applyRtOps (rt : RoutingTable) (ops : List RtOp) : RoutingTable :=
  ops.foldl applyRtOp rt

/-- The routing invariant of C4: every resident of bucket `i` is at
leading-zero distance `i` from the owner, no bucket exceeds `K_PARAM = 8`
entries, and no node id occurs twice (across buckets or within one). -/
def RoutingTable.Wf (rt : RoutingTable) : Prop :=
  (∀ j, ∀ h : j < rt.buckets.length, ∀ p ∈ rt.buckets[j],
    zeroesInPrefix (keyXor rt.nodeInfo.id p.id) = j) ∧
  (∀ b ∈ rt.buckets, b.length ≤ K_PARAM) ∧
  ((rt.buckets.flatten).map NodeInfo.id).Nodup

/-! Helper lemmas for C4. -/

theorem join_set_perm {α : Type} (L : List (List α)) (i : Nat) (b : List α)
    (h : List.Perm b (L.getD i [])) : List.Perm ((L.set i b).flatten) L.flatten := by
  induction L generalizing i with
  | nil => simp
  | cons a L ih =>
    cases i with
    | zero =>
      simp only [List.set, List.flatten_cons]
      exact (h.append_right L.flatten).trans (by simp)
    | succ i =>
      simp only [List.set, List.flatten_cons]
      exact (ih i (by simpa using h)).append_left a

theorem join_set_sublist {α : Type} (L : List (List α)) (i : Nat) (b : List α)
    (h : List.Sublist b (L.getD i [])) : List.Sublist ((L.set i b).flatten) L.flatten := by
  induction L generalizing i with
  | nil => simp
  | cons a L ih =>
    cases i with
    | zero =>
      simp only [List.set, List.flatten_cons]
      exact (h.append_right L.flatten).trans (by simp)
    | succ i =>
      simp only [List.set, List.flatten_cons]
      exact (ih i (by simpa using h)).append_left a

theorem join_set_append_perm {α : Type} (L : List (List α)) (i : Nat) (x : α)
    (hi : i < L.length) :
    List.Perm ((L.set i (L.getD i [] ++ [x])).flatten) (x :: L.flatten) := by
  induction L generalizing i with
  | nil => simp at hi
  | cons a L ih =>
    cases i with
    | zero =>
      simp only [List.set, List.getD_cons_zero, List.flatten_cons, List.append_assoc,
        List.singleton_append]
      exact List.perm_middle
    | succ i =>
      simp only [List.set, List.getD_cons_succ, List.flatten_cons]
      exact ((ih i (by simpa using hi)).append_left a).trans List.perm_middle

theorem getD_set_ne {α : Type} (L : List (List α)) (i j : Nat) (b : List α)
    (h : i ≠ j) : (L.set i b).getD j [] = L.getD j [] := by
  simp only [List.getD_eq_getElem?_getD, List.getElem?_set_ne h]

/-- The three update branches, as equations on the table component. -/
theorem update_eq_mru (rt : RoutingTable) (ni : NodeInfo) (i : Nat)
    (hf : List.findIdx? (fun x => decide (x.id = ni.id))
      (rt.buckets.getD (rt.lookupBucketIndex ni.id) []) = some i) :
    (rt.update ni).1 = ⟨rt.keyLen, rt.nodeInfo,
      rt.buckets.set (rt.lookupBucketIndex ni.id)
        ((rt.buckets.getD (rt.lookupBucketIndex ni.id) []).eraseIdx i ++
          [(rt.buckets.getD (rt.lookupBucketIndex ni.id) []).getD i default])⟩ := by
  simp only [RoutingTable.update, hf]

theorem update_eq_append (rt : RoutingTable) (ni : NodeInfo)
    (hf : List.findIdx? (fun x => decide (x.id = ni.id))
      (rt.buckets.getD (rt.lookupBucketIndex ni.id) []) = none)
    (hl : (rt.buckets.getD (rt.lookupBucketIndex ni.id) []).length < K_PARAM) :
    (rt.update ni).1 = ⟨rt.keyLen, rt.nodeInfo,
      rt.buckets.set (rt.lookupBucketIndex ni.id)
        ((rt.buckets.getD (rt.lookupBucketIndex ni.id) []) ++ [ni])⟩ := by
  simp only [RoutingTable.update, hf, if_pos hl]

theorem update_eq_full (rt : RoutingTable) (ni : NodeInfo)
    (hf : List.findIdx? (fun x => decide (x.id = ni.id))
      (rt.buckets.getD (rt.lookupBucketIndex ni.id) []) = none)
    (hl : ¬ (rt.buckets.getD (rt.lookupBucketIndex ni.id) []).length < K_PARAM) :
    (rt.update ni).1 = rt := by
  simp only [RoutingTable.update, hf, if_neg hl]

/-- Replacing one bucket by a permutation of itself keeps the invariant. -/
theorem wf_set_perm (rt : RoutingTable) (bi : Nat) (b2 : List NodeInfo)
    (h : rt.Wf) (hp : List.Perm b2 (rt.buckets.getD bi [])) :
    RoutingTable.Wf ⟨rt.keyLen, rt.nodeInfo, rt.buckets.set bi b2⟩ := by
  obtain ⟨h1, h2, h3⟩ := h
  refine ⟨?_, ?_, ?_⟩
  · intro j hj p hmem
    simp only [List.length_set] at hj
    by_cases hij : bi = j
    · subst hij
      have hblt : bi < rt.buckets.length := hj
      rw [List.getElem_set_self (by simpa using hj)] at hmem
      have : p ∈ rt.buckets.getD bi [] := hp.mem_iff.mp hmem
      rw [List.getD_eq_getElem _ _ hblt] at this
      exact h1 bi hblt p this
    · rw [List.getElem_set_ne hij] at hmem
      exact h1 j hj p hmem
  · intro b hb
    rcases List.mem_or_eq_of_mem_set hb with hmem | rfl
    · exact h2 b hmem
    · rw [hp.length_eq]
      by_cases hblt : bi < rt.buckets.length
      · rw [List.getD_eq_getElem _ _ hblt]
        exact h2 _ (List.getElem_mem hblt)
      · rw [List.getD_eq_default _ _ (Nat.le_of_not_lt hblt)]
        simp [K_PARAM]
  · exact h3.perm ((join_set_perm _ _ _ hp).map NodeInfo.id).symm

/-- Replacing one bucket by a sublist of itself keeps the invariant. -/
theorem wf_set_sublist (rt : RoutingTable) (bi : Nat) (b2 : List NodeInfo)
    (h : rt.Wf) (hp : List.Sublist b2 (rt.buckets.getD bi [])) :
    RoutingTable.Wf ⟨rt.keyLen, rt.nodeInfo, rt.buckets.set bi b2⟩ := by
  obtain ⟨h1, h2, h3⟩ := h
  refine ⟨?_, ?_, ?_⟩
  · intro j hj p hmem
    simp only [List.length_set] at hj
    by_cases hij : bi = j
    · subst hij
      have hblt : bi < rt.buckets.length := hj
      rw [List.getElem_set_self (by simpa using hj)] at hmem
      have : p ∈ rt.buckets.getD bi [] := hp.subset hmem
      rw [List.getD_eq_getElem _ _ hblt] at this
      exact h1 bi hblt p this
    · rw [List.getElem_set_ne hij] at hmem
      exact h1 j hj p hmem
  · intro b hb
    rcases List.mem_or_eq_of_mem_set hb with hmem | rfl
    · exact h2 b hmem
    · refine le_trans hp.length_le ?_
      by_cases hblt : bi < rt.buckets.length
      · rw [List.getD_eq_getElem _ _ hblt]
        exact h2 _ (List.getElem_mem hblt)
      · rw [List.getD_eq_default _ _ (Nat.le_of_not_lt hblt)]
        simp [K_PARAM]
  · exact ((join_set_sublist _ _ _ hp).map NodeInfo.id).nodup h3

/-- Appending a fresh id to its own bucket keeps the invariant, provided the
bucket has room and the id is the one the bucket index was computed from. -/
theorem wf_set_append (rt : RoutingTable) (ni : NodeInfo) (h : rt.Wf)
    (hfresh : ∀ x ∈ rt.buckets.getD (rt.lookupBucketIndex ni.id) [], x.id ≠ ni.id)
    (hl : (rt.buckets.getD (rt.lookupBucketIndex ni.id) []).length < K_PARAM) :
    RoutingTable.Wf ⟨rt.keyLen, rt.nodeInfo,
      rt.buckets.set (rt.lookupBucketIndex ni.id)
        ((rt.buckets.getD (rt.lookupBucketIndex ni.id) []) ++ [ni])⟩ := by
  obtain ⟨h1, h2, h3⟩ := h
  set bi := rt.lookupBucketIndex ni.id with hbi
  by_cases hblt : bi < rt.buckets.length
  case neg =>
    rw [List.set_eq_of_length_le (Nat.le_of_not_lt hblt)]
    exact ⟨h1, h2, h3⟩
  refine ⟨?_, ?_, ?_⟩
  · intro j hj p hmem
    simp only [List.length_set] at hj
    by_cases hij : bi = j
    · subst hij
      rw [List.getElem_set_self (by simpa using hj)] at hmem
      rcases List.mem_append.mp hmem with hmem | hmem
      · rw [List.getD_eq_getElem _ _ hblt] at hmem
        exact h1 bi hblt p hmem
      · rw [List.mem_singleton.mp hmem, hbi]
        rfl
    · rw [List.getElem_set_ne hij] at hmem
      exact h1 j hj p hmem
  · intro b hb
    rcases List.mem_or_eq_of_mem_set hb with hmem | rfl
    · exact h2 b hmem
    · rw [List.length_append, List.length_singleton]
      omega
  · have hperm := (join_set_append_perm rt.buckets bi ni hblt).map NodeInfo.id
    refine List.Nodup.perm ?_ hperm.symm
    simp only [List.map_cons, List.nodup_cons]
    refine ⟨?_, h3⟩
    intro hcon
    rcases List.mem_map.mp hcon with ⟨p, hpmem, hpid⟩
    rcases List.mem_flatten.mp hpmem with ⟨l, hlmem, hpl⟩
    rcases List.getElem_of_mem hlmem with ⟨j, hjlt, rfl⟩
    have hzero := h1 j hjlt p hpl
    rw [hpid] at hzero
    have hjbi : bi = j := hzero
    subst hjbi
    exact hfresh p (by rw [List.getD_eq_getElem _ _ hblt]; exact hpl) hpid

theorem remove_eq_erase (rt : RoutingTable) (ni : NodeInfo) (i : Nat)
    (hf : List.findIdx? (fun x => decide (x = ni))
      (rt.buckets.getD (rt.lookupBucketIndex ni.id) []) = some i) :
    rt.remove ni = ⟨rt.keyLen, rt.nodeInfo,
      rt.buckets.set (rt.lookupBucketIndex ni.id)
        ((rt.buckets.getD (rt.lookupBucketIndex ni.id) []).eraseIdx i)⟩ := by
  simp only [RoutingTable.remove, hf]

theorem remove_eq_miss (rt : RoutingTable) (ni : NodeInfo)
    (hf : List.findIdx? (fun x => decide (x = ni))
      (rt.buckets.getD (rt.lookupBucketIndex ni.id) []) = none) :
    rt.remove ni = rt := by
  simp only [RoutingTable.remove, hf]

/-- `update` preserves the routing invariant. -/
theorem update_wf (rt : RoutingTable) (ni : NodeInfo) (h : rt.Wf) :
    ((rt.update ni).1).Wf := by
  cases hf : List.findIdx? (fun x => decide (x.id = ni.id))
      (rt.buckets.getD (rt.lookupBucketIndex ni.id) []) with
  | some i =>
    rw [update_eq_mru rt ni i hf]
    have hilt : i < (rt.buckets.getD (rt.lookupBucketIndex ni.id) []).length :=
      (List.findIdx?_eq_some_iff_findIdx_eq.mp hf).1
    have hgd : (rt.buckets.getD (rt.lookupBucketIndex ni.id) []).getD i default =
        (rt.buckets.getD (rt.lookupBucketIndex ni.id) [])[i] :=
      List.getD_eq_getElem _ _ hilt
    rw [hgd]
    refine wf_set_perm rt _ _ h ?_
    refine (List.perm_append_singleton _ _).trans ?_
    exact ((List.perm_cons_erase (List.getElem_mem hilt)).trans
      ((List.erase_getElem hilt).cons _)).symm
  | none =>
    by_cases hl : (rt.buckets.getD (rt.lookupBucketIndex ni.id) []).length < K_PARAM
    · rw [update_eq_append rt ni hf hl]
      refine wf_set_append rt ni h ?_ hl
      intro x hx
      have := List.findIdx?_eq_none_iff.mp hf x hx
      simpa using this
    · rw [update_eq_full rt ni hf hl]
      exact h

/-- `remove` preserves the routing invariant. -/
theorem remove_wf (rt : RoutingTable) (ni : NodeInfo) (h : rt.Wf) :
    (rt.remove ni).Wf := by
  cases hf : List.findIdx? (fun x => decide (x = ni))
      (rt.buckets.getD (rt.lookupBucketIndex ni.id) []) with
  | some i =>
    rw [remove_eq_erase rt ni i hf]
    exact wf_set_sublist rt _ _ h (List.eraseIdx_sublist _ i)
  | none =>
    rw [remove_eq_miss rt ni hf]
    exact h

theorem flatten_replicate_nil {α : Type} (n : Nat) :
    (List.replicate n ([] : List α)).flatten = [] := by
  induction n with
  | zero => rfl
  | succ n ih => simp [List.replicate_succ, ih]

/-- The freshly built table of `RoutingTable::new` satisfies the invariant. -/
theorem new_wf (ni : NodeInfo) (keyLen : Nat) : (RoutingTable.new ni keyLen).Wf := by
  refine update_wf _ _ ⟨?_, ?_, ?_⟩
  · intro j hj p hmem
    simp only [List.getElem_replicate] at hmem
    exact absurd hmem (List.not_mem_nil p)
  · intro b hb
    rw [List.eq_of_mem_replicate hb]
    simp [K_PARAM]
  · rw [flatten_replicate_nil]
    simp

theorem applyRtOps_wf (ops : List RtOp) (rt : RoutingTable) (h : rt.Wf) :
    (applyRtOps rt ops).Wf := by
  induction ops generalizing rt with
  | nil => exact h
  | cons op ops ih =>
    cases op with
    | update ni => exact ih _ (update_wf rt ni h)
    | remove ni => exact ih _ (remove_wf rt ni h)

/-- C4: after any sequence of `update`/`remove` operations on a freshly
constructed routing table, every peer sits in the bucket indexed by the
leading-zero count of its XOR distance to the owner, no bucket holds more
than `K_PARAM = 8` entries, and no node id occurs twice (the owner itself may
reside in the table, in bucket `8 * key_len - 1`). -/
theorem claim4_routing_table_invariants (owner : NodeInfo) (keyLen : Nat)
    (ops : List RtOp) : (applyRtOps (RoutingTable.new owner keyLen) ops).Wf :=
  applyRtOps_wf ops _ (new_wf owner keyLen)

/-! ## SHA3-512 (the `sha3` crate used by `Key::hash` and `Address::sha3`)

Keccak-f[1600] with rate 576 bits, written over lists of 64-bit lanes
(`Nat` reduced mod `2 ^ 64`). -/

def rotl64 (x n : Nat) : Nat := ((x <<< n) ||| (x >>> (64 - n))) % 2 ^ 64

def lane (s : List Nat) (i : Nat) : Nat := s.getD i 0

def keccakRC : List Nat :=
  [0x1, 0x8082, 0x800000000000808a, 0x8000000080008000,
   0x808b, 0x80000001, 0x8000000080008081, 0x8000000000008009,
   0x8a, 0x88, 0x80008009, 0x8000000a,
   0x8000808b, 0x800000000000008b, 0x8000000000008089, 0x8000000000008003,
   0x8000000000008002, 0x8000000000000080, 0x800a, 0x800000008000000a,
   0x8000000080008081, 0x8000000000008080, 0x80000001, 0x8000000080008008]

def rhoOffsets : List Nat :=
  [0, 1, 62, 28, 27] ++ [36, 44, 6, 55, 20] ++ [3, 10, 43, 25, 39] ++
    [41, 45, 15, 21, 8] ++ [18, 2, 61, 56, 14]

def keccakTheta (s : List Nat) : List Nat :=
  let c := (List.range 5).map (fun x =>
    lane s x ^^^ lane s (x + 5) ^^^ lane s (x + 10) ^^^ lane s (x + 15) ^^^
      lane s (x + 20))
  let d := (List.range 5).map (fun x =>
    c.getD ((x + 4) % 5) 0 ^^^ rotl64 (c.getD ((x + 1) % 5) 0) 1)
  (List.range 25).map (fun i => lane s i ^^^ d.getD (i % 5) 0)

def keccakRhoPi (s : List Nat) : List Nat :=
  (List.range 25).foldl (fun acc i =>
    let x := i % 5
    let y := i / 5
    let j := y + 5 * ((2 * x + 3 * y) % 5)
    acc.set j (rotl64 (lane s i) (rhoOffsets.getD i 0))) (List.replicate 25 0)

def keccakChi (b : List Nat) : List Nat :=
  (List.range 25).map (fun i =>
    let x := i % 5
    let y := i / 5
    lane b i ^^^
      ((lane b ((x + 1) % 5 + 5 * y) ^^^ (2 ^ 64 - 1)) &&&
        lane b ((x + 2) % 5 + 5 * y)))

def keccakRound (s : List Nat) (rc : Nat) : List Nat :=
  let a := keccakChi (keccakRhoPi (keccakTheta s))
  a.set 0 (lane a 0 ^^^ rc)

def keccakF (s : List Nat) : List Nat := keccakRC.foldl keccakRound s

/-- Little-endian byte decoding. -/
def leBytesToNat (bs : List Nat) : Nat := bs.foldr (fun b acc => b + 256 * acc) 0

/-- Little-endian byte encoding, fixed width. -/
def natToLeBytes (n len : Nat) : List Nat :=
  (List.range len).map (fun i => n / 256 ^ i % 256)

def sha3Absorb (s block : List Nat) : List Nat :=
  keccakF ((List.range 25).map (fun i =>
    if i < 9 then lane s i ^^^ leBytesToNat ((block.drop (8 * i)).take 8)
    else lane s i))

/-- SHA-3 padding `0x06 … 0x80` to a multiple of the 72-byte rate. -/
def sha3Pad (msg : List Nat) : List Nat :=
  let padLen := 72 - msg.length % 72
  if padLen = 1 then msg ++ [0x86]
  else msg ++ [0x06] ++ List.replicate (padLen - 2) 0 ++ [0x80]

def chunksAux (r : Nat) : Nat → List Nat → List (List Nat)
  | 0, _ => []
  | fuel + 1, l => if l = [] then [] else l.take r :: chunksAux r fuel (l.drop r)

/-- SHA3-512 of a byte list (64-byte digest). -/
def sha3_512 (msg : List Nat) : List Nat :=
  let padded := sha3Pad msg
  let blocks := chunksAux 72 padded.length padded
  let final := blocks.foldl sha3Absorb (List.replicate 25 0)
  ((List.range 8).map (fun i => natToLeBytes (lane final i) 8)).flatten

/-- `Key::hash(data, len)`: SHA3-512 truncated to the first `len` bytes. -/
def keyHash (data : List Nat) (len : Nat) : Key := (sha3_512 data).take len

/-- `Key::to_hash`. -/
def keyToHash (k : Key) : Key := keyHash k k.length

/-! ## Broadcast / Multicast request handling (src/kad/node.rs, handle_req) -/

/-- Observable outcome of one `Broadcast`/`Multicast` arm of
`Node::handle_req`: whether the payload went to the application sink, whether
a relay (`node.broadcast` / `node.multicast`) was spawned, and the delay of
the spawned token-removal task. -/
structure BroadcastAction where
  sinkDelivered : Bool
  relayed : Bool
  removalDelayMs : Option Nat
  deriving DecidableEq

/-- The `Request::Broadcast(msg)` arm: always send `msg` to `self.tx`;
compute `hash(msg, TOKEN_KEY_LEN)`; relay iff the fingerprint is absent from
`broadcast_tokens` at receipt, scheduling its removal `BROADCAST_TIME_OUT`
milliseconds later. -/
def handleBroadcastReq (tokens : List Key) (msg : List Nat) : BroadcastAction :=
  let hash := keyHash msg TOKEN_KEY_LEN
  let isRelay : Bool := ¬ hash ∈ tokens
  ⟨true, isRelay, if isRelay then some BROADCAST_TIME_OUT else none⟩

/-- The `Request::Multicast(k, msg)` arm: send `msg` to `self.tx` only when
`k.is_prefix(&self.node_info.id)`; the relay decision is identical to the
broadcast arm. -/
def handleMulticastReq (selfId : Key) (tokens : List Key) (k : Key)
    (msg : List Nat) : BroadcastAction :=
  let hash := keyHash msg TOKEN_KEY_LEN
  let isRelay : Bool := ¬ hash ∈ tokens
  ⟨isPrefixKey k selfId, isRelay, if isRelay then some BROADCAST_TIME_OUT else none⟩

theorem bytesCompare_swap (a b : List Nat) :
    bytesCompare a b = (bytesCompare b a).swap := by
  induction a generalizing b with
  | nil => cases b <;> rfl
  | cons x xs ih =>
    cases b with
    | nil => rfl
    | cons y ys =>
      simp only [bytesCompare]
      rw [← Nat.compare_swap x y]
      cases h : compare x y with
      | eq =>
        have : compare y x = Ordering.eq := by
          rw [← Nat.compare_swap x y, h]; rfl
        simp only [Ordering.swap, this, ih ys]
      | lt => rfl
      | gt => rfl

theorem bytesCompare_eq_iff (a b : List Nat) :
    bytesCompare a b = Ordering.eq ↔ a = b := by
  induction a generalizing b with
  | nil => cases b <;> simp [bytesCompare]
  | cons x xs ih =>
    cases b with
    | nil => simp [bytesCompare]
    | cons y ys =>
      simp only [bytesCompare]
      cases h : compare x y with
      | eq =>
        have hxy : x = y := Nat.compare_eq_eq.mp h
        simp [hxy, ih ys]
      | lt =>
        have hxy : x < y := Nat.compare_eq_lt.mp h
        simp
        intro hc
        omega
      | gt =>
        have hxy : y < x := Nat.compare_eq_gt.mp h
        simp
        intro hc
        omega

/-- The source's `is_prefix` agrees with the byte-prefix relation. -/
theorem isPrefixKey_iff (a b : Key) : isPrefixKey a b = true ↔ List.IsPrefix a b := by
  unfold isPrefixKey
  by_cases h : a.length > b.length
  · simp only [if_pos h, Bool.false_eq_true, false_iff]
    intro hp
    exact absurd hp.length_le (by omega)
  · simp only [if_neg h, decide_eq_true_eq]
    have hle : a.length ≤ b.length := Nat.le_of_not_lt h
    constructor
    · intro hp
      rw [List.prefix_iff_eq_take]
      refine List.ext_getElem (by simp [hle]) ?_
      intro n h1 h2
      have hn : n < a.length := h1
      have := hp n (List.mem_range.mpr hn)
      rw [List.getD_eq_getElem _ _ hn,
        List.getD_eq_getElem _ _ (Nat.lt_of_lt_of_le hn hle)] at this
      rw [List.getElem_take]
      exact this
    · intro hp n hn
      have hn' : n < a.length := List.mem_range.mp hn
      obtain ⟨t, rfl⟩ := hp
      rw [List.getD_eq_getElem _ _ hn',
        List.getD_eq_getElem _ _ (Nat.lt_of_lt_of_le hn' hle)]
      exact (List.getElem_append_left hn').symm

theorem sha3_512_length (msg : List Nat) : (sha3_512 msg).length = 64 := by
  unfold sha3_512
  rw [List.length_flatten]
  simp [natToLeBytes, List.range_succ]

/-- C2: on `Broadcast(msg)` the payload always reaches the application sink
and a relay is spawned iff the 20-byte fingerprint `hash(msg, 20)` is absent
from the broadcast-token set at receipt; on `Multicast(prefix, msg)` the sink
is fed iff `prefix` is a byte-prefix of the node's own id, with the same
relay rule (and in both cases the fingerprint is scheduled for removal after
`BROADCAST_TIME_OUT`). -/
theorem claim2_broadcast_multicast_handling (selfId : Key) (tokens : List Key)
    (k : Key) (msg : List Nat) :
    (handleBroadcastReq tokens msg).sinkDelivered = true ∧
    ((handleBroadcastReq tokens msg).relayed = true ↔
      keyHash msg TOKEN_KEY_LEN ∉ tokens) ∧
    ((handleMulticastReq selfId tokens k msg).sinkDelivered = true ↔
      List.IsPrefix k selfId) ∧
    ((handleMulticastReq selfId tokens k msg).relayed = true ↔
      keyHash msg TOKEN_KEY_LEN ∉ tokens) ∧
    (keyHash msg TOKEN_KEY_LEN).length = TOKEN_KEY_LEN := by
  refine ⟨rfl, ?_, ?_, ?_, ?_⟩
  · simp [handleBroadcastReq]
  · exact isPrefixKey_iff k selfId
  · simp [handleMulticastReq]
  · unfold keyHash
    rw [List.length_take, sha3_512_length]
    rfl

/-! ## Iterative lookups (src/kad/node.rs, lookup_nodes / lookup_value / get)

`lookup_nodes` pours `closest_nodes(id, K)` into a `BinaryHeap` and then
immediately drains it: the drain yields the heap's backing vector in array
order. The heap is a max-heap ordered by the derived `Ord` of
`(NodeInfo, Key)` (node first, distance second); `BinaryHeap::from` heapifies
with `sift_down` from the last parent to the root, preferring the right child
on ties and stopping when the parent is not smaller. -/

def nodeInfoCompare (a b : NodeInfo) : Ordering :=
  match bytesCompare a.id b.id with
  | Ordering.eq =>
    match compare a.addr b.addr with
    | Ordering.eq => compare a.netId b.netId
    | o => o
  | o => o

/-- `(NodeInfo, Key) <= (NodeInfo, Key)` under the derived lexicographic
`Ord`. -/
def entryLe (a b : NodeInfo × Key) : Bool :=
  match nodeInfoCompare a.1 b.1 with
  | Ordering.eq => bytesCompare a.2 b.2 ≠ Ordering.gt
  | Ordering.lt => true
  | Ordering.gt => false

def swapAt (l : List (NodeInfo × Key)) (i j : Nat) : List (NodeInfo × Key) :=
  (l.set i (l.getD j default)).set j (l.getD i default)

/-- `BinaryHeap::sift_down` (max-heap; right child preferred on ties). -/
def siftDown (l : List (NodeInfo × Key)) (pos : Nat) : Nat → List (NodeInfo × Key)
  | 0 => l
  | fuel + 1 =>
    let len := l.length
    let c := 2 * pos + 1
    if c < len then
      let c := if c + 1 < len ∧ entryLe (l.getD c default) (l.getD (c + 1) default)
        then c + 1 else c
      if entryLe (l.getD c default) (l.getD pos default) then l
      else siftDown (swapAt l pos c) c fuel
    else l

def heapifyAux (l : List (NodeInfo × Key)) : Nat → List (NodeInfo × Key)
  | 0 => l
  | n + 1 => heapifyAux (siftDown l n l.length) n

/-- `BinaryHeap::from(vec)` (the `rebuild` loop); `drain` then yields this
list in order. -/
def heapify (l : List (NodeInfo × Key)) : List (NodeInfo × Key) :=
  heapifyAux l (l.length / 2)

def insertUnique (x : NodeInfo × Key) (l : List (NodeInfo × Key)) :
    List (NodeInfo × Key) :=
  if x ∈ l then l else l ++ [x]

/-- `Node::lookup_nodes`, with the network as an oracle
(`net dst target = none` models a timeout or wrong-kind reply of
`find_node`). The heap is seeded with `closest_nodes(id, K_PARAM)` and
drained at once; the `queried` set is written but never consulted again, and
the entries of a `FindNode` reply are discarded (`if let Some(_) = res`):
only the queried peers that replied enter the result, which is sorted by
distance and truncated to `K_PARAM`. -/
def lookupNodes (rt : RoutingTable)
    (net : NodeInfo → Key → Option (List (NodeInfo × Key))) (id : Key) :
    List (NodeInfo × Key) :=
  let queries := heapify (rt.closestNodes id K_PARAM)
  let replies := queries.map (fun e => net e.1 id)
  let ret := (replies.zip queries).foldl
    (fun acc p => if p.1.isSome then insertUnique p.2 acc else acc) []
  (sortByDist ret).take K_PARAM

inductive FindValueResult where
  | nodes (l : List (NodeInfo × Key))
  | value (v : List Nat)
  deriving DecidableEq

/-- Result processing of `Node::lookup_value`: walk the replies in drain
order; a `Nodes` reply adds the queried peer to the result set; the first
`Value` reply returns immediately with the set collected so far. -/
def lookupValueLoop :
    List (Option FindValueResult × (NodeInfo × Key)) → List (NodeInfo × Key) →
      Option (List Nat) × List (NodeInfo × Key)
  | [], acc => (none, (sortByDist acc).take K_PARAM)
  | (res, q) :: rest, acc =>
    match res with
    | none => lookupValueLoop rest acc
    | some (FindValueResult.nodes _) => lookupValueLoop rest (insertUnique q acc)
    | some (FindValueResult.value v) => (some v, (sortByDist acc).take K_PARAM)

/-- `Node::lookup_value`: seed with `closest_nodes(hash(k), K_PARAM)`, query
every seed once, process replies in drain order. -/
def lookupValue (rt : RoutingTable)
    (netV : NodeInfo → Key → Option FindValueResult) (k : Key) :
    Option (List Nat) × List (NodeInfo × Key) :=
  let id := keyToHash k
  let queries := heapify (rt.closestNodes id K_PARAM)
  lookupValueLoop (queries.map (fun e => (netV e.1 k, e))) []

/-- `Node::get`: on a found value, issue the caching `Store` to
`nodes.pop()` — the last element of the distance-sorted reply list, i.e. the
farthest such peer — or to the node itself when the list is empty; the pair
returned is (value, store target). -/
def getOp (rt : RoutingTable) (netV : NodeInfo → Key → Option FindValueResult)
    (k : Key) (selfInfo : NodeInfo) : Option (List Nat × NodeInfo) :=
  match lookupValue rt netV k with
  | (some v, nodes) => some (v, (nodes.getLast?.map Prod.fst).getD selfInfo)
  | (none, _) => none

/-- Modelled from the claim's words, for the refinement comparison of C1:
the iterative walk that pops up to `α = 3` closest peers per round, queries
them, adds every returned entry not yet queried to the heap and the queried
set, collects repliers, and loops until the heap is empty (fuel-bounded). -/
def lookupNodesSpecLoop (net : NodeInfo → Key → Option (List (NodeInfo × Key)))
    (id : Key) :
    Nat → List (NodeInfo × Key) → List (NodeInfo × Key) → List (NodeInfo × Key) →
      List (NodeInfo × Key)
  | 0, _, _, result => result
  | fuel + 1, heap, queried, result =>
    if heap = [] then result
    else
      let sorted := sortByDist heap
      let batch := sorted.take 3
      let rest := sorted.drop 3
      let replies := batch.map (fun e => (net e.1 id, e))
      let result2 := result ++ replies.filterMap
        (fun p => if p.1.isSome then some p.2 else none)
      let returned := (replies.filterMap Prod.fst).flatten
      let fresh := returned.foldl
        (fun acc e => if e ∈ queried ∨ e ∈ acc then acc else acc ++ [e]) []
      lookupNodesSpecLoop net id fuel (rest ++ fresh) (queried ++ fresh) result2

/-- Modelled from the claim's words (C1): seed with the `K` closest local
nodes, run the iterative walk, sort the result set by distance and truncate
to `K`. -/
def lookupNodesSpec (rt : RoutingTable)
    (net : NodeInfo → Key → Option (List (NodeInfo × Key))) (id : Key) :
    List (NodeInfo × Key) :=
  let seed := rt.closestNodes id K_PARAM
  (sortByDist (lookupNodesSpecLoop net id 100 seed seed [])).take K_PARAM

/-! Sorting and permutation toolkit for the lookup theorems. -/

theorem bytesCompare_le_trans {a b c : List Nat}
    (h1 : bytesCompare a b ≠ Ordering.gt) (h2 : bytesCompare b c ≠ Ordering.gt) :
    bytesCompare a c ≠ Ordering.gt := by
  induction a generalizing b c with
  | nil => cases c <;> simp [bytesCompare]
  | cons x xs ih =>
    cases b with
    | nil => simp [bytesCompare] at h1
    | cons y ys =>
      cases c with
      | nil => simp [bytesCompare] at h2
      | cons z zs =>
        simp only [bytesCompare] at h1 h2 ⊢
        cases hxy : compare x y with
        | gt => rw [hxy] at h1; exact absurd rfl h1
        | lt =>
          have hx : x < y := Nat.compare_eq_lt.mp hxy
          cases hyz : compare y z with
          | gt => rw [hyz] at h2; exact absurd rfl h2
          | lt =>
            have hy : y < z := Nat.compare_eq_lt.mp hyz
            rw [Nat.compare_eq_lt.mpr (by omega)]
            simp
          | eq =>
            have hy : y = z := Nat.compare_eq_eq.mp hyz
            rw [Nat.compare_eq_lt.mpr (by omega)]
            simp
        | eq =>
          have hx : x = y := Nat.compare_eq_eq.mp hxy
          rw [hxy] at h1
          cases hyz : compare y z with
          | gt => rw [hyz] at h2; exact absurd rfl h2
          | lt =>
            have hy : y < z := Nat.compare_eq_lt.mp hyz
            rw [Nat.compare_eq_lt.mpr (by omega)]
            simp
          | eq =>
            have hy : y = z := Nat.compare_eq_eq.mp hyz
            rw [hyz] at h2
            rw [Nat.compare_eq_eq.mpr (by omega)]
            exact ih h1 h2

theorem distLe_trans {a b c : NodeInfo × Key} (h1 : distLe a b = true)
    (h2 : distLe b c = true) : distLe a c = true := by
  simp only [distLe, ne_eq, decide_not, Bool.not_eq_false', decide_eq_true_eq,
    Bool.not_eq_true', decide_eq_false_iff_not] at h1 h2 ⊢
  exact bytesCompare_le_trans h1 h2

theorem distLe_total (a b : NodeInfo × Key) (h : distLe a b = false) :
    distLe b a = true := by
  unfold distLe at h ⊢
  simp only [ne_eq, decide_not, Bool.not_eq_false', decide_eq_true_eq] at h
  rw [bytesCompare_swap, h]
  decide

theorem insertByDist_perm (x : NodeInfo × Key) (l : List (NodeInfo × Key)) :
    List.Perm (insertByDist x l) (x :: l) := by
  induction l with
  | nil => exact List.Perm.refl _
  | cons y ys ih =>
    unfold insertByDist
    by_cases h : distLe y x = true
    · rw [if_pos h]
      exact (ih.cons y).trans (List.Perm.swap x y ys)
    · rw [if_neg h]

theorem sortByDist_perm (l : List (NodeInfo × Key)) :
    List.Perm (sortByDist l) l := by
  induction l with
  | nil => exact List.Perm.refl _
  | cons x xs ih =>
    exact (insertByDist_perm x (sortByDist xs)).trans (ih.cons x)

theorem insertByDist_sorted (x : NodeInfo × Key) (l : List (NodeInfo × Key))
    (h : l.Pairwise (fun a b => distLe a b = true)) :
    (insertByDist x l).Pairwise (fun a b => distLe a b = true) := by
  induction l with
  | nil => simp [insertByDist]
  | cons y ys ih =>
    rcases List.pairwise_cons.mp h with ⟨hy, hys⟩
    unfold insertByDist
    by_cases hle : distLe y x = true
    · rw [if_pos hle]
      refine List.pairwise_cons.mpr ⟨?_, ih hys⟩
      intro z hz
      rcases List.mem_cons.mp ((insertByDist_perm x ys).mem_iff.mp hz) with rfl | hmem
      · exact hle
      · exact hy z hmem
    · rw [if_neg hle]
      refine List.pairwise_cons.mpr ⟨?_, h⟩
      intro z hz
      rcases List.mem_cons.mp hz with hzy | hmem
      · rw [hzy]
        exact distLe_total y x (Bool.eq_false_iff.mpr hle)
      · exact distLe_trans (distLe_total y x (Bool.eq_false_iff.mpr hle)) (hy z hmem)

theorem sortByDist_sorted (l : List (NodeInfo × Key)) :
    (sortByDist l).Pairwise (fun a b => distLe a b = true) := by
  induction l with
  | nil => simp [sortByDist]
  | cons x xs ih => exact insertByDist_sorted x (sortByDist xs) ih

theorem set_getElem_self_eq {α : Type} (l : List α) (i : Nat) (d : α) :
    l.set i (l.getD i d) = l := by
  induction l generalizing i with
  | nil => rfl
  | cons a t ih =>
    cases i with
    | zero => simp [List.set]
    | succ n =>
      simp only [List.set, List.getD_cons_succ]
      rw [ih n]

theorem cons_set_perm {α : Type} (t : List α) (m : Nat) (a : α)
    (h : m < t.length) : List.Perm (t[m] :: t.set m a) (a :: t) := by
  induction t generalizing m with
  | nil => simp at h
  | cons b t ih =>
    cases m with
    | zero =>
      simp only [List.getElem_cons_zero, List.set]
      exact List.Perm.swap a b t
    | succ k =>
      have hk : k < t.length := by simpa using h
      simp only [List.getElem_cons_succ, List.set]
      exact ((List.Perm.swap b t[k] (t.set k a)).trans
        ((ih k hk).cons b)).trans (List.Perm.swap a b t)

theorem swapAt_perm (l : List (NodeInfo × Key)) (i j : Nat)
    (hi : i < l.length) (hj : j < l.length) : List.Perm (swapAt l i j) l := by
  unfold swapAt
  by_cases hij : i = j
  · subst hij
    have hset := set_getElem_self_eq l i default
    rw [List.getD_eq_getElem _ _ hi] at hset
    rw [List.getD_eq_getElem _ _ hi, List.set_set, hset]
  · induction l generalizing i j with
    | nil => simp at hi
    | cons a t iht =>
      cases i with
      | zero =>
        cases j with
        | zero => exact absurd rfl hij
        | succ m =>
          have hm : m < t.length := by simpa using hj
          simp only [List.getD_cons_zero, List.getD_cons_succ, List.set,
            List.getD_eq_getElem _ _ hm]
          exact cons_set_perm t m a hm
      | succ s =>
        cases j with
        | zero =>
          have hs : s < t.length := by simpa using hi
          simp only [List.getD_cons_zero, List.getD_cons_succ, List.set,
            List.getD_eq_getElem _ _ hs]
          exact cons_set_perm t s a hs
        | succ m =>
          have hs : s < t.length := by simpa using hi
          have hm : m < t.length := by simpa using hj
          simp only [List.getD_cons_succ, List.set]
          exact (iht s m hs hm (by omega)).cons a

theorem swapAt_length (l : List (NodeInfo × Key)) (i j : Nat) :
    (swapAt l i j).length = l.length := by
  simp [swapAt]

theorem siftDown_length (l : List (NodeInfo × Key)) (pos fuel : Nat) :
    (siftDown l pos fuel).length = l.length := by
  induction fuel generalizing l pos with
  | zero => rfl
  | succ fuel ih =>
    unfold siftDown
    by_cases hc : 2 * pos + 1 < l.length
    · rw [if_pos hc]
      by_cases hstop : entryLe
          (l.getD (if 2 * pos + 1 + 1 < l.length ∧
            entryLe (l.getD (2 * pos + 1) default)
              (l.getD (2 * pos + 1 + 1) default) = true
            then 2 * pos + 1 + 1 else 2 * pos + 1) default)
          (l.getD pos default) = true
      · rw [if_pos hstop]
      · rw [if_neg hstop, ih, swapAt_length]
    · rw [if_neg hc]

theorem siftDown_perm (l : List (NodeInfo × Key)) (pos fuel : Nat)
    (hpos : pos < l.length) : List.Perm (siftDown l pos fuel) l := by
  induction fuel generalizing l pos with
  | zero => exact List.Perm.refl l
  | succ fuel ih =>
    unfold siftDown
    by_cases hc : 2 * pos + 1 < l.length
    · rw [if_pos hc]
      set c := if 2 * pos + 1 + 1 < l.length ∧
        entryLe (l.getD (2 * pos + 1) default)
          (l.getD (2 * pos + 1 + 1) default) = true
        then 2 * pos + 1 + 1 else 2 * pos + 1 with hcdef
      have hclt : c < l.length := by
        rw [hcdef]
        by_cases h2 : 2 * pos + 1 + 1 < l.length ∧
            entryLe (l.getD (2 * pos + 1) default)
              (l.getD (2 * pos + 1 + 1) default) = true
        · rw [if_pos h2]; exact h2.1
        · rw [if_neg h2]; exact hc
      by_cases hstop : entryLe (l.getD c default) (l.getD pos default) = true
      · rw [if_pos hstop]
      · rw [if_neg hstop]
        refine (ih (swapAt l pos c) c ?_).trans (swapAt_perm l pos c hpos hclt)
        rw [swapAt_length]
        exact hclt
    · rw [if_neg hc]

theorem heapifyAux_perm (l : List (NodeInfo × Key)) (n : Nat)
    (hn : n ≤ l.length) : List.Perm (heapifyAux l n) l := by
  induction n generalizing l with
  | zero => exact List.Perm.refl l
  | succ n ih =>
    unfold heapifyAux
    have hlt : n < l.length := hn
    have h1 := siftDown_perm l n l.length hlt
    have h2 := ih (siftDown l n l.length) (by rw [siftDown_length]; omega)
    exact h2.trans h1

theorem heapify_perm (l : List (NodeInfo × Key)) : List.Perm (heapify l) l :=
  heapifyAux_perm l (l.length / 2) (Nat.div_le_self _ _)

theorem foldl_insertUnique (f : NodeInfo × Key → Option (List (NodeInfo × Key)))
    (qs acc : List (NodeInfo × Key)) (hnd : qs.Nodup)
    (hdisj : ∀ q ∈ qs, q ∉ acc) :
    ((qs.map f).zip qs).foldl
      (fun acc p => if p.1.isSome then insertUnique p.2 acc else acc) acc =
      acc ++ qs.filter (fun e => (f e).isSome) := by
  induction qs generalizing acc with
  | nil => simp
  | cons q qs ih =>
    rcases List.nodup_cons.mp hnd with ⟨hq, hnd'⟩
    simp only [List.map_cons, List.zip_cons_cons, List.foldl_cons]
    by_cases hsome : (f q).isSome
    · rw [if_pos hsome]
      have hnotin : q ∉ acc := hdisj q (List.mem_cons_self q qs)
      rw [show insertUnique q acc = acc ++ [q] from by
        unfold insertUnique; rw [if_neg hnotin]]
      rw [ih (acc ++ [q]) hnd' ?_]
      · rw [List.filter_cons, if_pos hsome, List.append_assoc]
        rfl
      · intro p hp
        rw [List.mem_append, List.mem_singleton]
        rintro (hpacc | rfl)
        · exact hdisj p (List.mem_cons_of_mem q hp) hpacc
        · exact hq hp
    · rw [if_neg hsome]
      rw [ih acc hnd' (fun p hp => hdisj p (List.mem_cons_of_mem q hp))]
      rw [List.filter_cons, if_neg hsome]

/-- Two distance-sorted permutations with pairwise distinct distances are
equal. -/
theorem sorted_perm_eq (l1 l2 : List (NodeInfo × Key))
    (hp : List.Perm l1 l2)
    (hs1 : l1.Pairwise (fun a b => distLe a b = true))
    (hs2 : l2.Pairwise (fun a b => distLe a b = true))
    (hd : l1.Pairwise (fun a b => a.2 ≠ b.2)) : l1 = l2 := by
  induction l1 generalizing l2 with
  | nil => exact (hp.nil_eq).symm ▸ rfl
  | cons x xs ih =>
    cases l2 with
    | nil => exact absurd hp.symm (by simp)
    | cons y ys =>
      rcases List.pairwise_cons.mp hs1 with ⟨hx1, hs1'⟩
      rcases List.pairwise_cons.mp hs2 with ⟨hy2, hs2'⟩
      rcases List.pairwise_cons.mp hd with ⟨hxd, hd'⟩
      have hxy : x = y := by
        by_contra hne
        have hxmem : x ∈ y :: ys := hp.mem_iff.mp (List.mem_cons_self x xs)
        have hymem : y ∈ x :: xs := hp.symm.mem_iff.mp (List.mem_cons_self y ys)
        rcases List.mem_cons.mp hxmem with h1 | h1
        · exact hne h1
        rcases List.mem_cons.mp hymem with h2 | h2
        · exact hne h2.symm
        have hle1 : distLe x y = true := hx1 y h2
        have hle2 : distLe y x = true := hy2 x h1
        have heq : bytesCompare x.2 y.2 = Ordering.eq := by
          simp only [distLe, ne_eq, decide_not, Bool.not_eq_false',
            decide_eq_true_eq, Bool.not_eq_true', decide_eq_false_iff_not] at hle1 hle2
          rw [bytesCompare_swap] at hle2
          cases hcmp : bytesCompare x.2 y.2 with
          | eq => rfl
          | gt => exact absurd hcmp hle1
          | lt => rw [hcmp] at hle2; exact absurd rfl hle2
        exact hxd y h2 (bytesCompare_eq_iff _ _ |>.mp heq)
      subst hxy
      have hp' : List.Perm xs ys := (List.perm_cons x).mp hp
      rw [ih ys hp' hs1' hs2' hd']

/-- C1 (amended): `lookup_nodes` performs one single round.  It seeds the
heap with `closest_nodes(target, K)` from the local table, sends every seeded
peer one `FindNode(target)` (no `α = 3` batching), discards the entries the
replies carry (they are added neither to the heap nor to the `queried` set),
and returns exactly the seeded peers that replied, sorted by XOR distance to
the target and truncated to `K`. Stated for seeds with pairwise distinct
distances (always the case for a well-formed table, where ids are unique). -/
theorem claim1_lookup_nodes_single_round (rt : RoutingTable)
    (net : NodeInfo → Key → Option (List (NodeInfo × Key))) (id : Key)
    (hd : (rt.closestNodes id K_PARAM).Pairwise (fun a b => a.2 ≠ b.2)) :
    lookupNodes rt net id =
      (sortByDist ((rt.closestNodes id K_PARAM).filter
        (fun e => (net e.1 id).isSome))).take K_PARAM := by
  have hperm := heapify_perm (rt.closestNodes id K_PARAM)
  have hnodupC : (rt.closestNodes id K_PARAM).Nodup :=
    hd.imp (fun hne heq => hne (congrArg Prod.snd heq))
  have hnodupQ : (heapify (rt.closestNodes id K_PARAM)).Nodup :=
    hperm.nodup_iff.mpr hnodupC
  simp only [lookupNodes]
  rw [foldl_insertUnique (fun e => net e.1 id) _ [] hnodupQ (by simp)]
  rw [List.nil_append]
  congr 1
  have hdQ : (heapify (rt.closestNodes id K_PARAM)).Pairwise
      (fun a b => a.2 ≠ b.2) := (hperm.pairwise_iff (fun h => Ne.symm h)).mpr hd
  refine sorted_perm_eq _ _ ?_ (sortByDist_sorted _) (sortByDist_sorted _) ?_
  · exact (sortByDist_perm _).trans ((hperm.filter _).trans (sortByDist_perm _).symm)
  · exact ((sortByDist_perm _).pairwise_iff (fun h => Ne.symm h)).mpr
      (List.Pairwise.filter _ hdQ)

/-! Concrete network for the C1/C5 refutations: the owner `[0]` knows peer
`[1]`, which replies with an entry for peer `[2]`; `[2]` itself would reply
with an empty list. -/

def cexO : NodeInfo := ⟨[0], 0, "t"⟩

def cexA : NodeInfo := ⟨[1], 1, "t"⟩

def cexB : NodeInfo := ⟨[2], 2, "t"⟩

def cexRt : RoutingTable := ((RoutingTable.new cexO 1).update cexA).1

def cexNet : NodeInfo → Key → Option (List (NodeInfo × Key)) :=
  fun ni _ =>
    if ni = cexA then some [(cexB, [2])]
    else if ni = cexB then some [] else none

/-- C1 counterexample: in a network where the only known peer `[1]` returns
the fresh peer `[2]` (which would answer a `FindNode`), the code's
`lookup_nodes` stops after one round and returns only `[1]`, while the
iterative walk the claim describes follows the returned entry and returns
`[1]` and `[2]`: the two disagree at this input. -/
theorem claim1_counterexample :
    lookupNodes cexRt cexNet [0] = [(cexA, [1])] ∧
    lookupNodesSpec cexRt cexNet [0] = [(cexA, [1]), (cexB, [2])] ∧
    lookupNodes cexRt cexNet [0] ≠ lookupNodesSpec cexRt cexNet [0] := by
  refine ⟨by decide, by decide, by decide⟩

/-- Instance of the amended C1 statement at the concrete network. -/
theorem claim1_single_round_witness :
    lookupNodes cexRt cexNet [0] =
      (sortByDist ((cexRt.closestNodes [0] K_PARAM).filter
        (fun e => (cexNet e.1 [0]).isSome))).take K_PARAM :=
  claim1_lookup_nodes_single_round cexRt cexNet [0] (by decide)

/-! Lemmas for C5 (`lookup_value` / `get`). -/

theorem distLe_refl (a : NodeInfo × Key) : distLe a a = true := by
  simp only [distLe, ne_eq, decide_not, Bool.not_eq_false', decide_eq_false_iff_not,
    Bool.not_eq_true', decide_eq_true_eq]
  rw [bytesCompare_eq_iff _ _ |>.mpr rfl]
  simp

theorem lookupValueLoop_snd_sorted
    (zs : List (Option FindValueResult × (NodeInfo × Key)))
    (acc : List (NodeInfo × Key)) :
    ((lookupValueLoop zs acc).2).Pairwise (fun a b => distLe a b = true) := by
  induction zs generalizing acc with
  | nil => exact (sortByDist_sorted acc).sublist (List.take_sublist _ _)
  | cons z zs ih =>
    obtain ⟨res, q⟩ := z
    cases res with
    | none => exact ih acc
    | some fv =>
      cases fv with
      | nodes _ => exact ih (insertUnique q acc)
      | value v => exact (sortByDist_sorted acc).sublist (List.take_sublist _ _)

/-- In a distance-sorted list every element precedes the last one. -/
theorem sorted_le_getLast (l : List (NodeInfo × Key)) (t : NodeInfo × Key)
    (hs : l.Pairwise (fun a b => distLe a b = true))
    (hlast : l.getLast? = some t) : ∀ x ∈ l, distLe x t = true := by
  induction l with
  | nil => simp at hlast
  | cons a rest ih =>
    rcases List.pairwise_cons.mp hs with ⟨ha, hrest⟩
    intro x hx
    cases rest with
    | nil =>
      simp only [List.getLast?_singleton, Option.some_inj] at hlast
      rcases List.mem_singleton.mp hx with rfl
      rw [← hlast]
      exact distLe_refl x
    | cons b rest' =>
      have hlast' : (b :: rest').getLast? = some t := by
        rwa [List.getLast?_cons_cons] at hlast
      rcases List.mem_cons.mp hx with hxa | hxmem
      · rw [hxa]
        exact ha t (List.mem_of_mem_getLast? hlast')
      · exact ih hrest hlast' x hxmem

/-- C5 (amended): `get(k)` returns `None` exactly when no queried peer
returned a value; when a value was found, the opportunistic caching `Store`
goes to the peer popped from the end of the ascending-distance-sorted list of
repliers that did not have the value — the FARTHEST such peer, not the
closest — and to the node itself when that list is empty. -/
theorem claim5_get_caches_at_farthest (rt : RoutingTable)
    (netV : NodeInfo → Key → Option FindValueResult) (k : Key)
    (selfInfo : NodeInfo) :
    ((lookupValue rt netV k).1 = none → getOp rt netV k selfInfo = none) ∧
    (∀ v, lookupValue rt netV k = (some v, []) →
      getOp rt netV k selfInfo = some (v, selfInfo)) ∧
    (∀ v nodes t, lookupValue rt netV k = (some v, nodes) →
      nodes.getLast? = some t →
      getOp rt netV k selfInfo = some (v, t.1) ∧
        ∀ x ∈ nodes, distLe x t = true) := by
  refine ⟨?_, ?_, ?_⟩
  · intro h
    cases hlv : lookupValue rt netV k with
    | mk vo ns =>
      rw [hlv] at h
      simp only at h
      subst h
      simp only [getOp, hlv]
  · intro v h
    simp only [getOp, h]
    rfl
  · intro v nodes t hlv hlast
    constructor
    · simp only [getOp, hlv, hlast]
      rfl
    · have hsorted : nodes.Pairwise (fun a b => distLe a b = true) := by
        have := lookupValueLoop_snd_sorted
          ((heapify (rt.closestNodes (keyToHash k) K_PARAM)).map
            (fun e => (netV e.1 k, e))) []
        rw [show lookupValueLoop
            ((heapify (rt.closestNodes (keyToHash k) K_PARAM)).map
              (fun e => (netV e.1 k, e))) [] = lookupValue rt netV k from rfl,
          hlv] at this
        exact this
      exact sorted_le_getLast nodes t hsorted hlast

/-! Concrete network for the C5 refutation: owner `[16]` knows peers `[1]`,
`[2]`, `[3]`; the target is `hash([5])[..1] = [210]`, so the drain order is
owner (timeout), `[2]`, `[3]`, `[1]`; `[2]` and `[3]` answer `Nodes`, then
`[1]` answers `Value`. -/

def cexVO : NodeInfo := ⟨[16], 0, "t"⟩

def cexVA : NodeInfo := ⟨[1], 1, "t"⟩

def cexVB : NodeInfo := ⟨[2], 2, "t"⟩

def cexVC : NodeInfo := ⟨[3], 3, "t"⟩

def cexVRt : RoutingTable :=
  ((((RoutingTable.new cexVO 1).update cexVA).1.update cexVB).1.update cexVC).1

def cexNetV : NodeInfo → Key → Option FindValueResult :=
  fun ni _ =>
    if ni = cexVA then some (FindValueResult.value [42])
    else if ni = cexVB then some (FindValueResult.nodes [])
    else if ni = cexVC then some (FindValueResult.nodes []) else none

set_option maxRecDepth 4000 in
/-- C5 counterexample: both `[2]` (distance 208) and `[3]` (distance 209)
replied `Nodes` before `[1]` returned the value, so the replier list is
`[([2], 208), ([3], 209)]`; `get` then issues its caching `Store` to `[3]`,
the FARTHEST of the two (the code pops the tail of the ascending sort), while
the claim says the closest peer `[2]` receives it. -/
theorem claim5_counterexample :
    lookupValue cexVRt cexNetV [5] =
      (some [42], [(cexVB, [208]), (cexVC, [209])]) ∧
    getOp cexVRt cexNetV [5] cexVO = some ([42], cexVC) ∧
    bytesCompare [208] [209] = Ordering.lt ∧ cexVC ≠ cexVB := by
  refine ⟨by decide, by decide, by decide, by decide⟩

/-! ## Local post handle (src/service/user_handle.rs)

`create_post` reads the id of the last stored post; `del` removes the post
with the given id and then creates a `Delete` post through `create_post`.
The `u128` id is a `Nat` reduced mod `2 ^ 128` at the `+ 1`. -/

inductive PostKindM where
  | hoot
  | rehoot
  | delete (id : Nat)
  deriving DecidableEq

structure PostM where
  id : Nat
  content : PostKindM
  deriving DecidableEq

structure UserHandleM where
  posts : List PostM
  deriving DecidableEq

/-- `UserHandle::create_post`: id 0 on an empty list, otherwise
`last.id + 1`; the signed post is appended. -/
def createPost (h : UserHandleM) (kind : PostKindM) : UserHandleM × Nat :=
  let id := match h.posts.getLast? with
    | some p => (p.id + 1) % 2 ^ 128
    | none => 0
  (⟨h.posts ++ [⟨id, kind⟩]⟩, id)

/-- `UserHandle::del`: drop the post whose id matches, then create a
`Delete(id)` post; `none` when no post carries the id. -/
def delPost (h : UserHandleM) (id : Nat) : UserHandleM × Option Nat :=
  match h.posts.findIdx? (fun p => decide (p.id = id)) with
  | some i =>
    let r := createPost ⟨h.posts.eraseIdx i⟩ (PostKindM.delete id)
    (r.1, some r.2)
  | none => (h, none)

inductive UserOp where
  | hoot
  | rehoot
  | del (id : Nat)
  deriving DecidableEq

/-- One operation; the second component is the id it assigned, if any. -/
def applyUserOp (h : UserHandleM) : UserOp → UserHandleM × Option Nat
  | UserOp.hoot => let r := createPost h PostKindM.hoot; (r.1, some r.2)
  | UserOp.rehoot => let r := createPost h PostKindM.rehoot; (r.1, some r.2)
  | UserOp.del id => delPost h id

/-- A run collecting every id assigned along the way. -/
def runUserOps (h : UserHandleM) : List UserOp → List Nat
  | [] => []
  | op :: ops =>
    let r := applyUserOp h op
    (r.2.toList) ++ runUserOps r.1 ops

/-- C9 counterexample: from a fresh handle, `hoot` assigns id 0; `del 0`
removes that post, leaving the list empty, and the `Delete` post it creates
is assigned id 0 again — one author assigns the same id twice. -/
theorem claim9_counterexample :
    runUserOps ⟨[]⟩ [UserOp.hoot, UserOp.del 0] = [0, 0] ∧
    ¬ (runUserOps ⟨[]⟩ [UserOp.hoot, UserOp.del 0]).Nodup := by
  refine ⟨by decide, by decide⟩

theorem runUserOps_no_del (h : UserHandleM) (ops : List UserOp)
    (hnd : ∀ op ∈ ops, ∀ i, op ≠ UserOp.del i) (m : Nat)
    (hpost : h.posts.map PostM.id = List.range m)
    (hlen : m + ops.length ≤ 2 ^ 128) :
    runUserOps h ops = (List.range (m + ops.length)).drop m := by
  induction ops generalizing h m with
  | nil => simp [runUserOps]
  | cons op ops ih =>
    rw [List.length_cons] at hlen
    have hmlt : m < 2 ^ 128 := by omega
    have hlast : Option.map PostM.id h.posts.getLast? = (List.range m).getLast? := by
      rw [← hpost, List.getLast?_map]
    have hid : ∀ kind, (createPost h kind).2 = m := by
      intro kind
      simp only [createPost]
      cases hl : h.posts.getLast? with
      | none =>
        rw [hl] at hlast
        cases hm : m with
        | zero => rfl
        | succ m' =>
          rw [hm, List.range_succ, List.getLast?_append,
            List.getLast?_singleton] at hlast
          simp at hlast
      | some p =>
        rw [hl] at hlast
        cases hm : m with
        | zero =>
          rw [hm] at hlast
          simp [List.range_zero] at hlast
        | succ m' =>
          rw [hm, List.range_succ, List.getLast?_append,
            List.getLast?_singleton] at hlast
          simp at hlast
          show (p.id + 1) % 2 ^ 128 = m' + 1
          rw [hlast, Nat.mod_eq_of_lt (by omega)]
    have hposts : ∀ kind, ((createPost h kind).1).posts.map PostM.id =
        List.range (m + 1) := by
      intro kind
      simp only [createPost, List.map_append, hpost, List.map_cons,
        List.map_nil, List.range_succ]
      congr 2
      have := hid kind
      simp only [createPost] at this
      exact this
    have hstep : ∀ kind, runUserOps h (op :: ops) =
        (createPost h kind).2 :: runUserOps ((createPost h kind).1) ops →
        runUserOps h (op :: ops) = (List.range (m + (ops.length + 1))).drop m := by
      intro kind heq
      rw [heq, hid kind]
      rw [ih _ (fun o ho i => hnd o (List.mem_cons_of_mem _ ho) i) (m + 1)
        (hposts kind) (by omega)]
      rw [show m + (ops.length + 1) = m + 1 + ops.length from by omega]
      rw [@List.drop_eq_getElem_cons _ m (List.range (m + 1 + ops.length))
        (by simp; omega)]
      rw [List.getElem_range]
    rw [List.length_cons]
    cases op with
    | del i => exact absurd rfl (hnd (UserOp.del i) (List.mem_cons_self _ _) i)
    | hoot => exact hstep PostKindM.hoot rfl
    | rehoot => exact hstep PostKindM.rehoot rfl

def UserOp.isDel : UserOp → Bool
  | UserOp.del _ => true
  | _ => false

/-- C9 (amended): `create_post` always assigns `last-stored-post.id + 1`
(0 on an empty list), so in any run from a fresh handle that performs no
`del`, the assigned ids are exactly `0, 1, 2, …` — strictly increasing and
never repeated.  A `del`, however, removes the matching post before creating
the `Delete` marker, so deleting the newest post makes `create_post` reassign
its id (see the counterexample): uniqueness holds only in del-free runs. -/
theorem claim9_ids_monotone_without_del (ops : List UserOp)
    (hnd : ∀ op ∈ ops, UserOp.isDel op = false)
    (hlen : ops.length ≤ 2 ^ 128) :
    runUserOps ⟨[]⟩ ops = List.range ops.length ∧
      (runUserOps ⟨[]⟩ ops).Nodup := by
  have hnd' : ∀ op ∈ ops, ∀ i, op ≠ UserOp.del i := by
    intro op hop i heq
    have := hnd op hop
    rw [heq] at this
    simp [UserOp.isDel] at this
  have h := runUserOps_no_del ⟨[]⟩ ops hnd' 0 (by simp) (by omega)
  simp only [Nat.zero_add, List.drop_zero] at h
  exact ⟨h, h ▸ List.nodup_range ops.length⟩

/-- Del-free run of three posts: ids are `0, 1, 2`. -/
theorem claim9_monotone_witness :
    runUserOps ⟨[]⟩ [UserOp.hoot, UserOp.rehoot, UserOp.hoot] = [0, 1, 2] ∧
      (runUserOps ⟨[]⟩ [UserOp.hoot, UserOp.rehoot, UserOp.hoot]).Nodup := by
  have h := claim9_ids_monotone_without_del
    [UserOp.hoot, UserOp.rehoot, UserOp.hoot] (by decide) (by decide)
  simpa using h

/-! ## SHA-512 (the `sha2` crate used by `fn h` in src/crypto/ed25519.rs)

Round constants are derived, as in the standard, from the fractional parts
of the cube (resp. square) roots of the first eighty primes; the whole
pipeline is validated below against the repository's own RFC 8032 test
vector in `src/crypto/ed25519.rs`. -/

def rotr64 (x n : Nat) : Nat := ((x >>> n) ||| (x <<< (64 - n))) % 2 ^ 64

/-- Bisection for the integer `k`-th root (largest `r` with `r ^ k ≤ n`). -/
def floorRootAux (k n : Nat) : Nat → Nat → Nat → Nat
  | 0, lo, _ => lo
  | fuel + 1, lo, hi =>
    if hi ≤ lo + 1 then lo
    else
      let mid := (lo + hi) / 2
      if mid ^ k ≤ n then floorRootAux k n fuel mid hi
      else floorRootAux k n fuel lo mid

def floorRoot (k n : Nat) : Nat := floorRootAux k n 400 0 (n + 1)

def primes80 : List Nat :=
  [2, 3, 5, 7, 11, 13, 17, 19, 23, 29, 31, 37, 41, 43, 47, 53, 59, 61, 67, 71,
   73, 79, 83, 89, 97, 101, 103, 107, 109, 113, 127, 131, 137, 139, 149, 151,
   157, 163, 167, 173, 179, 181, 191, 193, 197, 199, 211, 223, 227, 229, 233,
   239, 241, 251, 257, 263, 269, 271, 277, 281, 283, 293, 307, 311, 313, 317,
   331, 337, 347, 349, 353, 359, 367, 373, 379, 383, 389, 397, 401, 409]

/-- The 80 SHA-512 round constants: `frac(cbrt(p)) * 2^64`. -/
def shaK : List Nat := primes80.map (fun p => floorRoot 3 (p <<< 192) % 2 ^ 64)

/-- The 8 initial hash words: `frac(sqrt(p)) * 2^64`. -/
def shaH0 : List Nat :=
  (primes80.take 8).map (fun p => floorRoot 2 (p <<< 128) % 2 ^ 64)

def beBytesToNat (bs : List Nat) : Nat := bs.foldl (fun acc b => acc * 256 + b) 0

def natToBeBytes (n len : Nat) : List Nat :=
  (List.range len).map (fun i => n / 256 ^ (len - 1 - i) % 256)

/-- Append `0x80`, pad with zeros to 112 mod 128, then the 16-byte big-endian
bit length. -/
def sha512Pad (msg : List Nat) : List Nat :=
  let l := msg.length
  let padZeros := (128 + 112 - (l + 1) % 128) % 128
  msg ++ [0x80] ++ List.replicate padZeros 0 ++ natToBeBytes (8 * l) 16

def sha512Schedule (w : List Nat) : Nat → List Nat
  | 0 => w
  | fuel + 1 =>
    if w.length ≥ 80 then w
    else
      let t := w.length
      let x0 := w.getD (t - 15) 0
      let s0 := rotr64 x0 1 ^^^ rotr64 x0 8 ^^^ (x0 >>> 7)
      let x1 := w.getD (t - 2) 0
      let s1 := rotr64 x1 19 ^^^ rotr64 x1 61 ^^^ (x1 >>> 6)
      sha512Schedule
        (w ++ [(w.getD (t - 16) 0 + s0 + w.getD (t - 7) 0 + s1) % 2 ^ 64]) fuel

def sha512Round (st : List Nat) (kw : Nat × Nat) : List Nat :=
  let a := st.getD 0 0
  let b := st.getD 1 0
  let c := st.getD 2 0
  let d := st.getD 3 0
  let e := st.getD 4 0
  let f := st.getD 5 0
  let g := st.getD 6 0
  let hv := st.getD 7 0
  let s1 := rotr64 e 14 ^^^ rotr64 e 18 ^^^ rotr64 e 41
  let ch := (e &&& f) ^^^ ((e ^^^ (2 ^ 64 - 1)) &&& g)
  let t1 := (hv + s1 + ch + kw.1 + kw.2) % 2 ^ 64
  let s0 := rotr64 a 28 ^^^ rotr64 a 34 ^^^ rotr64 a 39
  let mj := (a &&& b) ^^^ (a &&& c) ^^^ (b &&& c)
  let t2 := (s0 + mj) % 2 ^ 64
  [(t1 + t2) % 2 ^ 64, a, b, c, (d + t1) % 2 ^ 64, e, f, g]

def sha512Compress (h : List Nat) (block : List Nat) : List Nat :=
  let w0 := (List.range 16).map (fun i => beBytesToNat ((block.drop (8 * i)).take 8))
  let w := sha512Schedule w0 80
  let st := (shaK.zip w).foldl sha512Round h
  (List.range 8).map (fun i => (h.getD i 0 + st.getD i 0) % 2 ^ 64)

/-- SHA-512 of a byte list (64-byte digest). -/
def sha512 (msg : List Nat) : List Nat :=
  let padded := sha512Pad msg
  let blocks := chunksAux 128 padded.length padded
  let hh := blocks.foldl sha512Compress shaH0
  ((List.range 8).map (fun i => natToBeBytes (hh.getD i 0) 8)).flatten

/-! ## Ed25519 (src/crypto/ed25519.rs)

The from-scratch implementation over affine Edwards coordinates: `BigUint`
becomes `Nat`, field elements live mod `Q = 2 ^ 255 - 19`, points are plain
pairs, and `scalar_mul`'s recursion on `coef / 2` carries fuel (600 covers
every 512-bit hash scalar). -/

/-- `q = 2^255 - 19`. -/
def edQ : Nat := 2 ^ 255 - 19

/-- `l = 2^252 + 27742317777372353535851937790883648493`. -/
def edL : Nat := 2 ^ 252 + 27742317777372353535851937790883648493

/-- Binary modular exponentiation (`BigUint::modpow`, an external crate
function), written as a tail-recursive square-and-multiply loop. -/
def powModAux (m : Nat) : Nat → Nat → Nat → Nat → Nat
  | 0, _, acc, _ => acc
  | fuel + 1, e, acc, base =>
    if e = 0 then acc
    else
      powModAux m fuel (e / 2)
        (if e % 2 = 1 then acc * base % m else acc) (base * base % m)

def powMod (b e m : Nat) (fuel : Nat) : Nat := powModAux m fuel e (1 % m) (b % m)

/-- `fn inv`: Fermat inversion `x^(q-2) mod q`. -/
def edInv (x : Nat) : Nat := powMod x (edQ - 2) edQ 600

/-- `d = -121665/121666 mod q`. -/
def edD : Nat := (edQ - 121665) * edInv 121666 % edQ

/-- `I = 2^((q-1)/4) mod q`. -/
def edI : Nat := powMod 2 ((edQ - 1) / 4) edQ 600

/-- `fn xrecover`. -/
def xrecover (y : Nat) : Nat :=
  let xx := (y * y + (edQ - 1)) * edInv (edD * y * y + 1) % edQ
  let x := powMod xx ((edQ + 3) / 8) edQ 600
  let x := if (x * x + (edQ - xx)) % edQ ≠ 0 then x * edI % edQ else x
  if x % 2 = 1 then edQ - x else x

/-- `Ed25519Point::is_on_curve`: `-x² + y² ≡ 1 + d·x²·y² (mod q)`. -/
def isOnCurve (p : Nat × Nat) : Bool :=
  ((edQ - p.1) * p.1 + p.2 * p.2) % edQ =
    (1 + edD * p.1 * p.1 * p.2 * p.2) % edQ

/-- `impl Add for Ed25519Point` (affine Edwards addition). -/
def pointAdd (p q : Nat × Nat) : Nat × Nat :=
  let x3 := (p.1 * q.2 + q.1 * p.2) * edInv (1 + edD * p.1 * q.1 * p.2 * q.2)
  let y3 := (p.2 * q.2 + p.1 * q.1) *
    edInv (1 + (edQ - edD) * p.1 * q.1 * p.2 * q.2)
  (x3 % edQ, y3 % edQ)

/-- `Ed25519Point::scalar_mul`: recursion on `coef / 2`, doubling then a
conditional add. -/
def scalarMul (p : Nat × Nat) (coef : Nat) : Nat → Nat × Nat
  | 0 => (0, 1)
  | fuel + 1 =>
    if coef = 0 then (0, 1)
    else
      let q := scalarMul p (coef / 2) fuel
      let q2 := pointAdd q q
      if coef % 2 = 1 then pointAdd q2 p else q2

/-- `BASE_POINT`: `y = 4/5 mod q`, `x = xrecover(y)`. -/
def basePoint : Nat × Nat :=
  let y := 4 * edInv 5 % edQ
  (xrecover y % edQ, y)

/-- `Ed25519Point::encode`: little-endian `y` with bit 255 set to `x`'s
parity, padded to 32 bytes. -/
def pointEncode (p : Nat × Nat) : List Nat :=
  natToLeBytes (p.2 % 2 ^ 255 + 2 ^ 255 * (p.1 % 2)) 32

inductive Ed25519Error where
  | point
  | signature
  deriving DecidableEq

deriving instance DecidableEq for Except

/-- `Ed25519Point::decode`: split off the sign bit, recover `x`, fix its
parity, reject points off the curve. -/
def pointDecode (bytes : List Nat) : Except Ed25519Error (Nat × Nat) :=
  let yraw := leBytesToNat bytes
  let sign := yraw / 2 ^ 255 % 2
  let y := yraw % 2 ^ 255
  let x := xrecover y
  let x := if x % 2 ≠ sign then edQ - x else x
  if isOnCurve (x, y) then Except.ok (x, y) else Except.error Ed25519Error.point

/-- The secret-scalar clamping shared by `sign` and `public_key`: clear bits
0–2, set bit 254, clear bit 255. -/
def clampScalar (s : Nat) : Nat := s / 8 * 8 % 2 ^ 254 + 2 ^ 254

/-- `SecretKey::public_key` (the `to_bytes` of the resulting point). -/
def ed25519PublicKey (sk : List Nat) : List Nat :=
  let hh := sha512 sk
  let a := clampScalar (leBytesToNat (hh.take 32))
  pointEncode (scalarMul basePoint a 600)

/-- Minimal little-endian bytes (`BigUint::to_bytes_le`; `[0]` for zero). -/
def natLeBytesMinAux : Nat → Nat → List Nat
  | 0, _ => []
  | fuel + 1, n => if n = 0 then [] else n % 256 :: natLeBytesMinAux fuel (n / 256)

def natToLeBytesMin (n : Nat) : List Nat :=
  if n = 0 then [0] else natLeBytesMinAux 40 n

/-- `SecretKey::sign`.  The final step converts `ss.to_bytes_le()` (a
minimal-length vector) into `[u8; 32]` with `try_into().unwrap()`, which
panics whenever `ss < 2 ^ 248`; a panic is modelled as `none`. -/
def ed25519Sign (sk msg : List Nat) : Option (List Nat) :=
  let hh := sha512 sk
  let s := clampScalar (leBytesToNat (hh.take 32))
  let r := leBytesToNat (sha512 (hh.drop 32 ++ msg))
  let rr := pointEncode (scalarMul basePoint r 600)
  let pk := ed25519PublicKey sk
  let k := leBytesToNat (sha512 (rr ++ pk ++ msg))
  let ss := (r + k * s) % edL
  let ssBytes := natToLeBytesMin ss
  if ssBytes.length = 32 then some (rr ++ ssBytes) else none

/-- `PublicKey::from_bytes`: accepted iff the bytes decode to a curve
point. -/
def publicKeyFromBytes (bytes : List Nat) : Except Ed25519Error (List Nat) :=
  match pointDecode bytes with
  | Except.ok _ => Except.ok bytes
  | Except.error e => Except.error e

/-- `PublicKey::verify`: decode `r` and the key (propagating `Point`
errors), then check `s·B = R + k·A`. -/
def ed25519Verify (pk signature msg : List Nat) : Except Ed25519Error Unit :=
  match pointDecode (signature.take 32) with
  | Except.error e => Except.error e
  | Except.ok r =>
    match pointDecode pk with
    | Except.error e => Except.error e
    | Except.ok a =>
      let s := leBytesToNat (signature.drop 32)
      let k := leBytesToNat (sha512 (pointEncode r ++ pk ++ msg))
      if scalarMul basePoint s 600 ≠ pointAdd r (scalarMul a k 600) then
        Except.error Ed25519Error.signature
      else Except.ok ()

/-! The validation of the embedding against the repository's own test
`test_keygen_sign_verify` (the RFC 8032 TEST 3 vector): the derived public
key and signature match the expected constants byte for byte. -/

def rfcTestSk : List Nat :=
  [0xc5, 0xaa, 0x8d, 0xf4, 0x3f, 0x9f, 0x83, 0x7b, 0xed, 0xb7, 0x44, 0x2f,
   0x31, 0xdc, 0xb7, 0xb1, 0x66, 0xd3, 0x85, 0x35, 0x07, 0x6f, 0x09, 0x4b,
   0x85, 0xce, 0x3a, 0x2e, 0x0b, 0x44, 0x58, 0xf7]

def rfcTestPk : List Nat :=
  [0xfc, 0x51, 0xcd, 0x8e, 0x62, 0x18, 0xa1, 0xa3, 0x8d, 0xa4, 0x7e, 0xd0,
   0x02, 0x30, 0xf0, 0x58, 0x08, 0x16, 0xed, 0x13, 0xba, 0x33, 0x03, 0xac,
   0x5d, 0xeb, 0x91, 0x15, 0x48, 0x90, 0x80, 0x25]

/-- The canonical `serde_json` bytes of the concrete post
`Post { user_attr: { name: "a", created_at: 0, description: "" }, id: 0,
content: Hoot { text: "x" }, created_at: 0 }` (optional `Hoot` fields are
skipped by its serde attributes). -/
def claim6Msg : List Nat :=
  ("\x7b\"user_attr\":\x7b\"name\":\"a\",\"created_at\":0,\"description\":\"\"\x7d,\"id\":0,\"content\":\x7b\"Hoot\":\x7b\"text\":\"x\"\x7d\x7d,\"created_at\":0\x7d").toList.map Char.toNat

/-- The failing secret key of C6: byte 3 followed by 31 zero bytes. -/
def claim6Sk : List Nat := 3 :: List.replicate 31 0

/-! ## BLAKE2s-256 (the `blake2` crate used by `Address::blake2s`) -/

def rotr32 (x n : Nat) : Nat := ((x >>> n) ||| (x <<< (32 - n))) % 2 ^ 32

def blakeIV : List Nat :=
  (primes80.take 8).map (fun p => floorRoot 2 (p <<< 64) % 2 ^ 32)

def blake2sSigma : List (List Nat) :=
  [[0, 1, 2, 3, 4, 5, 6, 7, 8, 9, 10, 11, 12, 13, 14, 15],
   [14, 10, 4, 8, 9, 15, 13, 6, 1, 12, 0, 2, 11, 7, 5, 3],
   [11, 8, 12, 0, 5, 2, 15, 13, 10, 14, 3, 6, 7, 1, 9, 4],
   [7, 9, 3, 1, 13, 12, 11, 14, 2, 6, 5, 10, 4, 0, 15, 8],
   [9, 0, 5, 7, 2, 4, 10, 15, 14, 1, 11, 12, 6, 8, 3, 13],
   [2, 12, 6, 10, 0, 11, 8, 3, 4, 13, 7, 5, 15, 14, 1, 9],
   [12, 5, 1, 15, 14, 13, 4, 10, 0, 7, 6, 3, 9, 2, 8, 11],
   [13, 11, 7, 14, 12, 1, 3, 9, 5, 0, 15, 4, 8, 6, 2, 10],
   [6, 15, 14, 9, 11, 3, 0, 8, 12, 2, 13, 7, 1, 4, 10, 5],
   [10, 2, 8, 4, 7, 6, 1, 5, 15, 11, 9, 14, 3, 12, 13, 0]]

def blakeG (v : List Nat) (a b c d x y : Nat) : List Nat :=
  let va := (v.getD a 0 + v.getD b 0 + x) % 2 ^ 32
  let vd := rotr32 (v.getD d 0 ^^^ va) 16
  let vc := (v.getD c 0 + vd) % 2 ^ 32
  let vb := rotr32 (v.getD b 0 ^^^ vc) 12
  let va2 := (va + vb + y) % 2 ^ 32
  let vd2 := rotr32 (vd ^^^ va2) 8
  let vc2 := (vc + vd2) % 2 ^ 32
  let vb2 := rotr32 (vb ^^^ vc2) 7
  (((v.set a va2).set b vb2).set c vc2).set d vd2

def blakeRound (m : List Nat) (v : List Nat) (r : Nat) : List Nat :=
  let s := blake2sSigma.getD (r % 10) []
  let g := fun (v : List Nat) (i a b c d : Nat) =>
    blakeG v a b c d (m.getD (s.getD (2 * i) 0) 0) (m.getD (s.getD (2 * i + 1) 0) 0)
  let v := g v 0 0 4 8 12
  let v := g v 1 1 5 9 13
  let v := g v 2 2 6 10 14
  let v := g v 3 3 7 11 15
  let v := g v 4 0 5 10 15
  let v := g v 5 1 6 11 12
  let v := g v 6 2 7 8 13
  g v 7 3 4 9 14

def blake2sCompress (h : List Nat) (block : List Nat) (t : Nat) (last : Bool) :
    List Nat :=
  let m := (List.range 16).map (fun i => leBytesToNat ((block.drop (4 * i)).take 4))
  let v := h ++ blakeIV
  let v := v.set 12 (v.getD 12 0 ^^^ (t % 2 ^ 32))
  let v := v.set 13 (v.getD 13 0 ^^^ (t / 2 ^ 32 % 2 ^ 32))
  let v := if last then v.set 14 (v.getD 14 0 ^^^ (2 ^ 32 - 1)) else v
  let v := (List.range 10).foldl (blakeRound m) v
  (List.range 8).map (fun i => h.getD i 0 ^^^ v.getD i 0 ^^^ v.getD (i + 8) 0)

/-- BLAKE2s-256, unkeyed (digest length 32, so `h0 ^= 0x01010020`). -/
def blake2s (msg : List Nat) : List Nat :=
  let h0 := blakeIV.set 0 (blakeIV.getD 0 0 ^^^ 0x01010020)
  let blocks := if msg = [] then [[]] else chunksAux 64 msg.length msg
  let n := blocks.length
  let final := (List.range n).foldl (fun h i =>
    let b := blocks.getD i [] ++ List.replicate (64 - (blocks.getD i []).length) 0
    if i = n - 1 then blake2sCompress h b msg.length true
    else blake2sCompress h b (64 * (i + 1)) false) h0
  (final.map (fun w => natToLeBytes w 4)).flatten

/-! ## Addresses (src/user/user.rs) and the user-DHT predicate
(src/service/network.rs) -/

/-- `Address::hash`: `blake2s(blake2s(sha3_512(sha3_512(data))))`, mapping a
32-byte public key to a 32-byte address.  `Address::from(pk)` wraps this with
version prefix 0, and `Address` equality compares prefix and bytes, so two
version-0 addresses are equal iff these byte strings are. -/
def addressHash (data : List Nat) : List Nat :=
  blake2s (blake2s (sha3_512 (sha3_512 data)))

/-- `UserDHT::is_valid_addr_pubkey_pair`: 64 bytes, the last 32 decode to a
curve point, and `Address::from(pk)` equals the first 32 bytes. -/
def isValidAddrPubkeyPair (data : List Nat) : Bool :=
  if data.length ≠ 64 then false
  else
    match publicKeyFromBytes (data.drop 32) with
    | Except.ok pk => decide (data.take 32 = addressHash pk)
    | Except.error _ => false

/-- C3: the user-DHT store predicate accepts `v` iff `v` is exactly 64 bytes
long, its trailing 32 bytes decode to a valid Ed25519 curve point, and the
address derived from those trailing bytes equals its leading 32 bytes; in
particular wrong length or an invalid curve point is rejected. -/
theorem claim3_user_dht_predicate (v : List Nat) :
    (isValidAddrPubkeyPair v = true ↔
      v.length = 64 ∧ (pointDecode (v.drop 32)).toBool = true ∧
        v.take 32 = addressHash (v.drop 32)) ∧
    (v.length ≠ 64 → isValidAddrPubkeyPair v = false) ∧
    ((pointDecode (v.drop 32)).toBool = false → isValidAddrPubkeyPair v = false) := by
  unfold isValidAddrPubkeyPair publicKeyFromBytes
  by_cases hlen : v.length = 64
  · simp only [hlen, ne_eq, not_true_eq_false, if_false]
    cases hdec : pointDecode (v.drop 32) with
    | ok p =>
      simp [Except.toBool, hdec]
    | error e =>
      simp [Except.toBool, hdec]
  · simp only [ne_eq, hlen, not_false_eq_true, if_true]
    simp [hlen]

set_option maxRecDepth 100000 in
/-- Evaluation of the predicate at concrete inputs: the empty vector and a
64-byte vector whose trailing bytes are not a curve point are rejected. -/
theorem claim3_user_dht_predicate_witness :
    isValidAddrPubkeyPair [] = false ∧
    isValidAddrPubkeyPair
      (List.replicate 32 0 ++ (2 :: List.replicate 31 0)) = false := by
  refine ⟨?_, ?_⟩
  · exact (claim3_user_dht_predicate []).2.1 (by decide)
  · exact (claim3_user_dht_predicate _).2.2 (by decide)

/-! ## `UserAttribute::new` (src/user/user.rs) -/

structure UserAttributeM where
  name : List Nat
  createdAt : Nat
  description : List Nat
  deriving DecidableEq

/-- `UserAttribute::new`: decode the key (propagating decode errors with
`?`), verify the signature over `name ‖ created_at.to_le_bytes() ‖
description`, and — as written in the source — return
`Err(Ed25519Error::Signature)` when verification SUCCEEDS and the built
attribute when it fails. -/
def userAttributeNew (publicKey name : List Nat) (createdAt : Nat)
    (description signature : List Nat) : Except Ed25519Error UserAttributeM :=
  match publicKeyFromBytes publicKey with
  | Except.error e => Except.error e
  | Except.ok pk =>
    match ed25519Verify pk signature
        (name ++ natToLeBytes (createdAt % 2 ^ 64) 8 ++ description) with
    | Except.ok _ => Except.error Ed25519Error.signature
    | Except.error _ => Except.ok ⟨name, createdAt, description⟩

/-- C10: when the public key decodes, the constructor accepts exactly when
the Ed25519 verification fails and returns `Err(Ed25519Error::Signature)`
exactly when it succeeds: its acceptance condition is the negation of a
successful signature check. -/
theorem claim10_user_attribute_inverted (publicKey name : List Nat)
    (createdAt : Nat) (description signature : List Nat)
    (hdec : (publicKeyFromBytes publicKey).toBool = true) :
    (userAttributeNew publicKey name createdAt description signature =
        Except.ok ⟨name, createdAt, description⟩ ↔
      ed25519Verify publicKey signature
        (name ++ natToLeBytes (createdAt % 2 ^ 64) 8 ++ description) ≠
          Except.ok ()) ∧
    (userAttributeNew publicKey name createdAt description signature =
        Except.error Ed25519Error.signature ↔
      ed25519Verify publicKey signature
        (name ++ natToLeBytes (createdAt % 2 ^ 64) 8 ++ description) =
          Except.ok ()) := by
  unfold userAttributeNew
  cases hpk : publicKeyFromBytes publicKey with
  | error e => rw [hpk] at hdec; simp [Except.toBool] at hdec
  | ok pk =>
    have hpkeq : pk = publicKey := by
      unfold publicKeyFromBytes at hpk
      cases hd : pointDecode publicKey with
      | ok p => rw [hd] at hpk; exact (Except.ok.injEq _ _ |>.mp hpk).symm
      | error e => rw [hd] at hpk; exact absurd hpk (by simp)
    subst hpkeq
    dsimp only
    cases hv : ed25519Verify pk signature
        (name ++ natToLeBytes (createdAt % 2 ^ 64) 8 ++ description) with
    | ok u =>
      cases u
      simp
    | error e =>
      simp

set_option maxRecDepth 100000 in
/-- Witness for C10 at a concrete input: the RFC 8032 test public key
decodes, and a signature whose first 32 bytes (`y = 2`) are not a curve
point makes verification fail, so the constructor returns `Ok`. -/
theorem claim10_inverted_witness :
    userAttributeNew rfcTestPk [] 0 []
        ((2 :: List.replicate 31 0) ++ List.replicate 32 0) =
      Except.ok ⟨[], 0, []⟩ := by
  have h := claim10_user_attribute_inverted rfcTestPk [] 0 []
    ((2 :: List.replicate 31 0) ++ List.replicate 32 0) (by decide)
  exact h.1.mpr (by decide)

/-! ## C6: the panic in `SecretKey::sign` -/

/-- The scalar `ss = (r + k*a) mod l` computed by `SecretKey::sign`
(the value whose minimal little-endian encoding is unwrapped into
`[u8; 32]`); the `let` chain mirrors `ed25519Sign`. -/
def ed25519SignScalar (sk msg : List Nat) : Nat :=
  let hh := sha512 sk
  let s := clampScalar (leBytesToNat (hh.take 32))
  let r := leBytesToNat (sha512 (hh.drop 32 ++ msg))
  let rr := pointEncode (scalarMul basePoint r 600)
  let pk := ed25519PublicKey sk
  let k := leBytesToNat (sha512 (rr ++ pk ++ msg))
  (r + k * s) % edL

theorem natLeBytesMinAux_zero (fuel : Nat) : natLeBytesMinAux fuel 0 = [] := by
  cases fuel <;> simp [natLeBytesMinAux]

/-- `BigUint::to_bytes_le` produces exactly `log_256 n + 1` bytes on a
positive `n` (with enough fuel). -/
theorem natLeBytesMinAux_length (fuel : Nat) :
    ∀ n, 0 < n → n < 256 ^ fuel →
      (natLeBytesMinAux fuel n).length = Nat.log 256 n + 1 := by
  induction fuel with
  | zero =>
    intro n hn hlt
    simp at hlt
    omega
  | succ f ih =>
    intro n hn hlt
    simp only [natLeBytesMinAux]
    rw [if_neg (by omega)]
    by_cases hq : n / 256 = 0
    · have hn256 : n < 256 := (Nat.div_eq_zero_iff (by norm_num)).mp hq
      have hlog : Nat.log 256 n = 0 := Nat.log_eq_zero_iff.mpr (Or.inl hn256)
      rw [hq]
      simp [natLeBytesMinAux_zero, hlog]
    · have hq' : 0 < n / 256 := Nat.pos_of_ne_zero hq
      have hlt' : n / 256 < 256 ^ f := by
        rw [Nat.div_lt_iff_lt_mul (by norm_num)]
        calc n < 256 ^ (f + 1) := hlt
        _ = 256 ^ f * 256 := by ring
      have h256 : 256 ≤ n := by
        by_contra hcon
        push_neg at hcon
        exact hq ((Nat.div_eq_zero_iff (by norm_num)).mpr hcon)
      rw [List.length_cons, ih (n / 256) hq' hlt', Nat.log_div_base]
      have hpos : 0 < Nat.log 256 n := Nat.log_pos (by norm_num) h256
      omega

/-- `to_bytes_le` yields something other than 32 bytes exactly on the
values below `2 ^ 248` (among those below `2 ^ 256`, where `ss` lives). -/
theorem natToLeBytesMin_length_ne (n : Nat) (h : n < 2 ^ 256) :
    (natToLeBytesMin n).length ≠ 32 ↔ n < 2 ^ 248 := by
  simp only [natToLeBytesMin]
  by_cases h0 : n = 0
  · subst h0
    norm_num
  · rw [if_neg h0]
    have hfuel : n < 256 ^ 40 := lt_of_lt_of_le h (by norm_num)
    rw [natLeBytesMinAux_length 40 n (Nat.pos_of_ne_zero h0) hfuel]
    constructor
    · intro hne
      by_contra hcon
      push_neg at hcon
      have h1 : 31 ≤ Nat.log 256 n :=
        (Nat.pow_le_iff_le_log (by norm_num) h0).mp
          (by calc (256 : Nat) ^ 31 = 2 ^ 248 := by norm_num
          _ ≤ n := hcon)
      have h2 : Nat.log 256 n < 32 :=
        (Nat.lt_pow_iff_log_lt (by norm_num) h0).mp
          (by calc n < 2 ^ 256 := h
          _ = 256 ^ 32 := by norm_num)
      omega
    · intro hless hcon
      have hlog : Nat.log 256 n = 31 := by omega
      have := Nat.pow_log_le_self 256 h0
      rw [hlog] at this
      have : (2 : Nat) ^ 248 ≤ n := by
        calc (2 : Nat) ^ 248 = 256 ^ 31 := by norm_num
        _ ≤ n := this
      omega

/-- C6: the claimed sign/verify round trip breaks down inside
`SecretKey::sign` itself.  Line 121 of `src/crypto/ed25519.rs` converts
`ss.to_bytes_le()` (a minimal-length vector) into `[u8; 32]` with
`try_into().unwrap()`, so `sign` panics (modelled as `none`) precisely
when the scalar `ss = (r + k*a) mod l` is below `2 ^ 248` — about one
signature in 256 — and only then is no signature produced.  A concrete
instance: the secret key `0x03` followed by 31 zero bytes signing the
canonical JSON of the post held in `claim6Msg` yields
`ss = 197162808563405385340993224602178467349096145493938849556326939418948591643 < 2 ^ 248`,
whose `to_bytes_le` has 31 bytes. -/
theorem claim6_sign_panics (sk msg : List Nat) :
    ed25519Sign sk msg = none ↔ ed25519SignScalar sk msg < 2 ^ 248 := by
  have hlt : ed25519SignScalar sk msg < 2 ^ 256 := by
    have h1 : ed25519SignScalar sk msg < edL := by
      simp only [ed25519SignScalar]
      exact Nat.mod_lt _ (by norm_num [edL])
    exact lt_of_lt_of_le h1 (by norm_num [edL])
  rw [← natToLeBytesMin_length_ne _ hlt]
  simp only [ed25519Sign, ed25519SignScalar]
  split_ifs with h
  · exact ⟨fun h2 => absurd h2 (by simp), fun h2 => absurd h h2⟩
  · exact ⟨fun _ => h, fun _ => rfl⟩


end Noktulo
